import Mathlib

/-!
# Chi-Iroh/Math : `Fraction<int>` and `Matrix<T, Size>`

A shallow embedding of `Math.hpp`, `Fraction.hpp` and `Matrix.hpp`.

* `int` is modelled by `Int` (unbounded), C++ integer division by `Int.tdiv`
  (truncation towards zero).
* `long double` is modelled by `ℚ` (exact arithmetic).
* `std::array<T, Size * Size>` is modelled by a `List T` together with the
  template parameter `Size`, passed explicitly.
-/

namespace Math

/-! ## Math.hpp -/

/-- The test `division == (first / i)` in the body of `commonDivisor`
(`Math.hpp`, lines 30-31): the `long double` quotient, taken exactly, against
the truncating integer quotient. -/
def quotientIsExact (first i : Int) : Bool :=
  decide (((first : ℚ) / (i : ℚ)) = ((Int.tdiv first i : Int) : ℚ))

/-- The `for` loop of `commonDivisor` (`Math.hpp`, lines 29-34), started at the
counter value `i`; the first argument bounds the iterations still to run. -/
def commonDivisorLoop (first second : Int) : Nat → Int → Option Int
  | 0, _ => none
  | fuel + 1, i =>
    if i ≤ min first second then
      if quotientIsExact first i then some i
      else commonDivisorLoop first second fuel (i + 1)
    else none

/-- `commonDivisor(first, second)` (`Math.hpp`, lines 26-36): the counter runs
from `2` to `min(first, second)`, which is at most `min(first, second)` rounds. -/
def commonDivisor (first second : Int) : Option Int :=
  commonDivisorLoop first second (min first second).toNat 2

/-! ## Fraction.hpp, instantiated at `T = int` -/

/-- `Fraction<int>`: the two private fields `numerator_` and `denominator_`. -/
structure Fraction where
  numerator : Int
  denominator : Int
deriving DecidableEq

namespace Fraction

/-- The `while (true)` loop of `Fraction::reduce` (`Fraction.hpp`, lines 19-26),
with a bound on the number of rounds. -/
def reduceLoop : Nat → Fraction → Fraction
  | 0, f => f
  | fuel + 1, f =>
    match commonDivisor f.numerator f.denominator with
    | none => f
    | some divisor =>
      reduceLoop fuel ⟨Int.tdiv f.numerator divisor, Int.tdiv f.denominator divisor⟩

/-- `Fraction::reduce` for a non-fraction `T`.  Every round divides the
numerator by a divisor that is at least `2`, so `numerator_` rounds are enough
(`reduceLoop_fuel_irrelevant` below). -/
def reduce (f : Fraction) : Fraction :=
  reduceLoop f.numerator.toNat f

/-- The constructor `Fraction(T numerator, T denominator)` (lines 42-51). -/
def ofPair (numerator denominator : Int) : Fraction :=
  reduce ⟨numerator, denominator⟩

/-- The constructor `Fraction(T result = 0)` (lines 53-55). -/
def ofValue (result : Int) : Fraction :=
  ⟨result, 1⟩

/-- `Fraction::result` (lines 62-64); `none` stands for the integer division
by zero. -/
def result (f : Fraction) : Option Int :=
  if f.denominator = 0 then none else some (Int.tdiv f.numerator f.denominator)

/-- `Fraction::inverse` (lines 74-76). -/
def inverse (f : Fraction) : Fraction :=
  ofPair f.denominator f.numerator

/-- `Fraction::operator+(const Fraction<T>&)` (lines 78-85). -/
def add (f other : Fraction) : Fraction :=
  if f.denominator = other.denominator then
    ofPair (f.numerator + other.numerator) f.denominator
  else
    ofPair (f.numerator * other.denominator + other.numerator * f.denominator)
      (f.denominator * other.denominator)

/-- `Fraction::operator*(const Fraction<T>&)` (lines 103-105). -/
def mul (f other : Fraction) : Fraction :=
  ofPair (f.numerator * other.numerator) (f.denominator * other.denominator)

/-- `Fraction::operator/(const Fraction<T>&)` (lines 111-113). -/
def div (f other : Fraction) : Fraction :=
  mul f (inverse other)

/-- `Fraction::operator==(const Fraction<T>&)` (lines 185-187). -/
def eq (f other : Fraction) : Bool :=
  f.numerator == other.numerator && f.denominator == other.denominator

/-- `Fraction::operator!=(const Fraction<T>&)` (lines 193-195). -/
def ne (f other : Fraction) : Bool :=
  !(eq f other)

/-- The ways the loop of `Fraction::reduce` could fail to deliver a reduced pair. -/
inductive ReduceError where
  | divisionByZero
  | roundsExhausted
deriving DecidableEq

/-- The `while (true)` loop of `Fraction::reduce` (lines 19-26) with its failures made
explicit: `numerator_ /= divisor.value()` is a division by zero when the divisor is `0`, and
the loop is cut after the given number of rounds. -/
def reduceChecked : Nat → Fraction → Except ReduceError Fraction
  | 0, _ => .error .roundsExhausted
  | fuel + 1, f =>
    match commonDivisor f.numerator f.denominator with
    | none => .ok f
    | some divisor =>
      if divisor = 0 then .error .divisionByZero
      else reduceChecked fuel ⟨Int.tdiv f.numerator divisor, Int.tdiv f.denominator divisor⟩

end Fraction

/-! ## Fraction.hpp, instantiated at `T = Fraction<int>` -/

/-- `Fraction<Fraction<int>>`: the fields `numerator_` and `denominator_` are themselves
`Fraction<int>`. -/
structure NestedFraction where
  numerator : Fraction
  denominator : Fraction
deriving DecidableEq

namespace NestedFraction

/-- The constructor `Fraction(T result = 0)` (lines 53-55) for `T = Fraction<int>`:
`denominator_` keeps its default member initialiser `T{ 1 }`, which is `Fraction<int>(1)`. -/
def ofValue (result : Fraction) : NestedFraction :=
  ⟨result, Fraction.ofValue 1⟩

/-- The constructor `Fraction(T numerator, T denominator)` (lines 42-51) for a fraction-like
`T`: `*this = numerator / denominator`, the quotient being converted by `Fraction(T result)`. -/
def ofPair (numerator denominator : Fraction) : NestedFraction :=
  ofValue (Fraction.div numerator denominator)

/-- `Fraction::result` (lines 62-64) for `T = Fraction<int>`: `numerator_ / denominator_` with
`Fraction<int>::operator/`. -/
def result (f : NestedFraction) : Fraction :=
  Fraction.div f.numerator f.denominator

end NestedFraction

/-- The reduced-form invariant of the data model: no integer greater than `1`
evenly divides both fields. -/
def reducedForm (f : Fraction) : Prop :=
  ∀ k : Int, 1 < k → ¬ (k ∣ f.numerator ∧ k ∣ f.denominator)

/-! ## Matrix.hpp

A `Matrix<T, Size>` is its coefficient array `coefs_`, row-major, given as a list; it is
an `Size × Size` matrix when the list has `Size * Size` entries.  Unchecked reads
`coefs_[k]` are `getD k 0`, writes `coefs[k] = v` are `List.set`. -/

namespace Matrix

variable {T : Type}

/-- The `std::out_of_range` exception thrown by `std::array::at`. -/
inductive Error where
  | outOfRange
deriving DecidableEq

/-- `Matrix::subMatrix(lineToErase, columnToErase)` (`Matrix.hpp`, lines 17-28).  The state of
the two nested loops is the pair `(subCoefs, coefsCopied)`. -/
def subMatrix [Zero T] (Size : Nat) (coefs : List T) (lineToErase columnToErase : Nat) :
    List T :=
  ((List.range Size).foldl (fun state line =>
    (List.range Size).foldl (fun (state : List T × Nat) column =>
      if line ≠ lineToErase ∧ column ≠ columnToErase then
        (state.1.set state.2 (coefs.getD (line * Size + column) 0), state.2 + 1)
      else state) state)
    (List.replicate ((Size - 1) * (Size - 1)) 0, 0)).1

/-- `Matrix::identity` (lines 31-37). -/
def identity [Zero T] [One T] (Size : Nat) : List T :=
  (List.range Size).foldl (fun coefs i => coefs.set (i * (Size + 1)) 1)
    (List.replicate (Size * Size) 0)

/-- `Matrix::at(std::size_t index)` (lines 106-108): `std::array::at` on the
`Size * Size` coefficients. -/
def atIndex [Zero T] (Size : Nat) (coefs : List T) (index : Nat) : Except Error T :=
  if index < Size * Size then .ok (coefs.getD index 0) else .error .outOfRange

/-- The number of values of `std::size_t`, the type in which `line * Size + column` is
computed: `2 ^ 64` on the 64-bit target.  A `std::array` of `Size * Size` coefficients only
exists when `std::size_t` can hold `Size * Size`; for a larger `Size` the type is taken wide
enough for that. -/
def sizeModulus (Size : Nat) : Nat :=
  max (2 ^ 64) (Size * Size + 1)

/-- `Matrix::at(std::size_t line, std::size_t column)` (lines 102-104): the flat index
`line * Size + column` is unsigned arithmetic in `std::size_t` and wraps around. -/
def atLineColumn [Zero T] (Size : Nat) (coefs : List T) (line column : Nat) :
    Except Error T :=
  atIndex Size coefs ((line * Size + column) % sizeModulus Size)

/-- `Matrix::det` (lines 118-142).  `Size` is at least `1` (`static_assert`, line 11). -/
def det [Ring T] : Nat → List T → T
  | 0, _ => 0
  | 1, coefs => coefs.getD 0 0
  | 2, coefs => coefs.getD 3 0 * coefs.getD 0 0 - coefs.getD 1 0 * coefs.getD 2 0
  | Size + 3, coefs =>
    (List.range (Size + 3)).foldl (fun determinant i =>
      let subMatrixDet := det (Size + 2) (subMatrix (Size + 3) coefs 0 i)
      if i % 2 = 0 then determinant + coefs.getD i 0 * subMatrixDet
      else determinant - coefs.getD i 0 * subMatrixDet) 0

/-- `Matrix::transpose` (lines 188-197). -/
def transpose [Zero T] (Size : Nat) (coefs : List T) : List T :=
  (List.range Size).foldl (fun newCoefs line =>
    (List.range Size).foldl (fun newCoefs column =>
      newCoefs.set (column * Size + line) (coefs.getD (line * Size + column) 0)) newCoefs)
    (List.replicate (Size * Size) 0)

/-- `Matrix::convertTo<long double>` (lines 211-219) on a matrix of `int`. -/
def convertTo (coefs : List Int) : List ℚ :=
  coefs.map fun val => (val : ℚ)

/-- `operator*(const Matrix&, T_ factor)` (lines 285-292). -/
def mulFactor [Mul T] (coefs : List T) (factor : T) : List T :=
  coefs.map fun val => val * factor

/-- `operator*(T_ factor, const Matrix&)` (lines 294-297). -/
def factorMul [Mul T] (factor : T) (coefs : List T) : List T :=
  mulFactor coefs factor

/-- The range-`for` of `operator*(const Matrix&, const Matrix&)` (lines 302-311) over the
entries of `productCoefs` still to visit, with the counters `line` and `column`. -/
def mulLoop [Ring T] (Size : Nat) (first second : List T) : Nat → Nat → Nat → List T
  | 0, _, _ => []
  | remaining + 1, line, column =>
    let val := (List.range Size).foldl (fun val i =>
      val + first.getD (line * Size + i) 0 * second.getD (i * Size + column) 0) 0
    val :: (if column + 1 = Size then mulLoop Size first second remaining (line + 1) 0
      else mulLoop Size first second remaining line (column + 1))

/-- `operator*(const Matrix&, const Matrix&)` (lines 299-313). -/
def mul [Ring T] (Size : Nat) (first second : List T) : List T :=
  mulLoop Size first second (Size * Size) 0 0

/-- `Matrix::inverse` (lines 221-241) on a matrix of `int`, `long double` being `ℚ`. -/
def inverse (Size : Nat) (coefs : List Int) : List ℚ :=
  if Size = 1 then
    [((Int.tdiv 1 (coefs.getD 0 0) : Int) : ℚ)]
  else
    let factor : ℚ := 1 / ((det Size coefs : Int) : ℚ)
    let comatrix : List ℚ :=
      (List.range Size).foldl (fun comatrix line =>
        (List.range Size).foldl (fun (comatrix : List ℚ) column =>
          let comatrixCoef : Int := det (Size - 1) (subMatrix Size coefs line column)
          let index := line * Size + column
          if index % 2 = 0 then comatrix.set index ((comatrixCoef : Int) : ℚ)
          else comatrix.set index (((-comatrixCoef : Int)) : ℚ)) comatrix)
        (List.replicate (Size * Size) 0)
    factorMul factor (transpose Size comatrix)

/-- The constructor `Matrix(T value = 0)` (lines 43-47): every coefficient is `value`. -/
def ofValue (Size : Nat) (value : T) : List T :=
  List.replicate (Size * Size) value

/-- The writing access `T& Matrix::at(std::size_t line, std::size_t column)` (lines 110-112)
followed by an assignment of `value`; the flat index is computed in `std::size_t`. -/
def setAtLineColumn (Size : Nat) (coefs : List T) (line column : Nat) (value : T) :
    Except Error (List T) :=
  if (line * Size + column) % sizeModulus Size < Size * Size then
    .ok (coefs.set ((line * Size + column) % sizeModulus Size) value)
  else .error .outOfRange

/-- `Matrix::resized<NewSize>` (lines 70-86). -/
def resized [Zero T] (Size NewSize : Nat) (coefs : List T) : Except Error (List T) :=
  if Size = NewSize then .ok coefs
  else
    let smallestSize := min Size NewSize
    (List.range smallestSize).foldlM (fun result line =>
      (List.range smallestSize).foldlM (fun (result : List T) column => do
        let value ← atLineColumn Size coefs line column
        setAtLineColumn NewSize result line column value) result)
      (ofValue NewSize 0)

/-- `power(T val, unsigned long long pow)` (`Math.hpp`, lines 12-24) for a matrix `T`, which
satisfies `isMatrix`; this is also `Matrix::operator^` (`Matrix.hpp`, lines 251-253). -/
def power [Ring T] (Size : Nat) (val : List T) : Nat → List T
  | 0 => identity Size
  | pow + 1 => mul Size val (power Size val pow)

/-- `Matrix::isNilpotent(depth)` (lines 204-209).  For `depth == 0` the source (line 206) is
`return coefs_ = vals_t{};`: an assignment to the member `coefs_` inside a `const` method,
whose result is an array and not a `bool`.  The statement is ill-formed, so the method
delivers no truth value there: `none`.  Otherwise the square of the matrix is asked with
`depth - 1`. -/
def isNilpotent [Ring T] (Size : Nat) (coefs : List T) : Nat → Option Bool
  | 0 => none
  | depth + 1 => isNilpotent Size (mul Size coefs coefs) depth

/-- The `Size × Size` matrix, in Mathlib's sense, that a coefficient array denotes. -/
def toMatrix [Zero T] (Size : Nat) (coefs : List T) : Matrix (Fin Size) (Fin Size) T :=
  fun line column => coefs.getD (line.val * Size + column.val) 0

end Matrix

/-! ## Facts about `commonDivisor` -/

theorem quotientIsExact_iff (first i : Int) (hi : i ≠ 0) :
    quotientIsExact first i = true ↔ i ∣ first := by
  have hq : (i : ℚ) ≠ 0 := by exact_mod_cast hi
  simp only [quotientIsExact, decide_eq_true_eq]
  constructor
  · intro h
    rw [div_eq_iff hq] at h
    refine ⟨Int.tdiv first i, ?_⟩
    have h2 : (first : ℚ) = ((i * Int.tdiv first i : Int) : ℚ) := by
      rw [h]; push_cast; ring
    exact_mod_cast h2
  · rintro ⟨k, rfl⟩
    rw [Int.mul_tdiv_cancel_left _ hi]
    push_cast
    field_simp

theorem quotientIsExact_eq (first i : Int) (hi : i ≠ 0) :
    quotientIsExact first i = decide (first % i = 0) := by
  rw [Bool.eq_iff_iff, quotientIsExact_iff first i hi, decide_eq_true_eq]
  exact Int.dvd_iff_emod_eq_zero

theorem commonDivisorLoop_some (first second : Int) (fuel : Nat) (i j : Int) (hi : 0 < i)
    (h : commonDivisorLoop first second fuel i = some j) :
    i ≤ j ∧ j ≤ min first second ∧ j ∣ first := by
  induction fuel generalizing i with
  | zero => simp [commonDivisorLoop] at h
  | succ fuel ih =>
    simp only [commonDivisorLoop] at h
    split at h
    · rename_i hle
      split at h
      · rename_i hq
        have hdvd := (quotientIsExact_iff first i (ne_of_gt hi)).1 hq
        cases h
        exact ⟨le_refl _, hle, hdvd⟩
      · obtain ⟨h1, h2, h3⟩ := ih (i + 1) (by omega) h
        exact ⟨by omega, h2, h3⟩
    · cases h

theorem commonDivisorLoop_none (first second : Int) (fuel : Nat) (i : Int) (hi : 0 < i)
    (hfuel : min first second + 1 - i ≤ fuel)
    (h : commonDivisorLoop first second fuel i = none) (k : Int) (hik : i ≤ k)
    (hk : k ≤ min first second) : ¬ k ∣ first := by
  induction fuel generalizing i with
  | zero => omega
  | succ fuel ih =>
    simp only [commonDivisorLoop] at h
    split at h
    · split at h
      · cases h
      · rename_i hq
        rcases eq_or_lt_of_le hik with rfl | hlt
        · rwa [quotientIsExact_iff first i (ne_of_gt hi)] at hq
        · exact ih (i + 1) (by omega) (by push_cast at hfuel; omega) h (by omega)
    · omega

theorem commonDivisorLoop_eq_none (first second : Int) (fuel : Nat) (i : Int) (hi : 0 < i)
    (h : ∀ k : Int, i ≤ k → k ≤ min first second → ¬ k ∣ first) :
    commonDivisorLoop first second fuel i = none := by
  induction fuel generalizing i with
  | zero => rfl
  | succ fuel ih =>
    simp only [commonDivisorLoop]
    split
    · rename_i hle
      rw [if_neg, ih (i + 1) (by omega) (fun k hk hk2 => h k (by omega) hk2)]
      rw [quotientIsExact_iff first i (ne_of_gt hi)]
      exact h i (le_refl _) hle
    · rfl

theorem commonDivisor_some (first second j : Int) (h : commonDivisor first second = some j) :
    2 ≤ j ∧ j ≤ first ∧ j ≤ second ∧ j ∣ first := by
  obtain ⟨h1, h2, h3⟩ := commonDivisorLoop_some first second _ 2 j (by norm_num) h
  exact ⟨h1, le_trans h2 (min_le_left _ _), le_trans h2 (min_le_right _ _), h3⟩

theorem commonDivisor_eq_none_iff (first second : Int) :
    commonDivisor first second = none ↔
      ∀ k : Int, 2 ≤ k → k ≤ first → k ≤ second → ¬ k ∣ first := by
  constructor
  · intro h k hk h1 h2
    refine commonDivisorLoop_none first second _ 2 (by norm_num) ?_ h k hk (le_min h1 h2)
    rw [Int.toNat_of_nonneg (by have := le_min h1 h2; omega)]
    omega
  · intro h
    exact commonDivisorLoop_eq_none first second _ 2 (by norm_num)
      (fun k hk hk2 => h k hk (le_trans hk2 (min_le_left _ _)) (le_trans hk2 (min_le_right _ _)))

theorem commonDivisor_of_le_one (first second : Int) (h : min first second ≤ 1) :
    commonDivisor first second = none := by
  rw [commonDivisor_eq_none_iff]
  intro k hk h1 h2
  have := le_min h1 h2
  omega

/-! ## Facts about `Fraction::reduce` -/

namespace Fraction

theorem reduceLoop_of_none (fuel : Nat) (f : Fraction)
    (h : commonDivisor f.numerator f.denominator = none) : reduceLoop fuel f = f := by
  cases fuel with
  | zero => rfl
  | succ fuel => simp only [reduceLoop, h]

theorem reduceLoop_of_some (fuel : Nat) (f : Fraction) (divisor : Int)
    (h : commonDivisor f.numerator f.denominator = some divisor) :
    reduceLoop (fuel + 1) f =
      reduceLoop fuel ⟨Int.tdiv f.numerator divisor, Int.tdiv f.denominator divisor⟩ := by
  simp only [reduceLoop, h]

theorem tdiv_lt_of_commonDivisor (n d j : Int) (h : commonDivisor n d = some j) :
    1 ≤ Int.tdiv n j ∧ Int.tdiv n j < n ∧ 1 ≤ Int.tdiv d j := by
  obtain ⟨h2, hn, hd, hdvd⟩ := commonDivisor_some n d j h
  have hj : 0 < j := by omega
  rw [Int.tdiv_eq_ediv (by omega) (by omega), Int.tdiv_eq_ediv (by omega) (by omega)]
  refine ⟨Int.le_ediv_of_mul_le hj (by omega), ?_, Int.le_ediv_of_mul_le hj (by omega)⟩
  exact Int.ediv_lt_of_lt_mul hj (by nlinarith)

/-- The loop of `reduce` leaves through `break`, not through the bound on the
rounds: on exit `commonDivisor` finds nothing. -/
theorem reduceLoop_exit (fuel : Nat) (f : Fraction) (hfuel : f.numerator.toNat ≤ fuel) :
    commonDivisor (reduceLoop fuel f).numerator (reduceLoop fuel f).denominator = none := by
  induction fuel generalizing f with
  | zero =>
    simp only [reduceLoop]
    exact commonDivisor_of_le_one _ _ (by
      have : f.numerator ≤ 0 := by omega
      exact le_trans (min_le_left _ _) (by omega))
  | succ fuel ih =>
    cases h : commonDivisor f.numerator f.denominator with
    | none => rw [reduceLoop_of_none _ _ h]; exact h
    | some j =>
      rw [reduceLoop_of_some _ _ _ h]
      obtain ⟨h1, h2, _⟩ := tdiv_lt_of_commonDivisor _ _ _ h
      exact ih _ (by simp only; omega)

/-- More rounds than `numerator_` change nothing. -/
theorem reduceLoop_fuel_irrelevant (fuel : Nat) (f : Fraction)
    (hfuel : f.numerator.toNat ≤ fuel) : reduceLoop fuel f = reduce f := by
  have key : ∀ (a b : Nat) (g : Fraction), g.numerator.toNat ≤ a → g.numerator.toNat ≤ b →
      reduceLoop a g = reduceLoop b g := by
    intro a
    induction a with
    | zero =>
      intro b g ha _
      rw [reduceLoop_of_none 0, reduceLoop_of_none b] <;>
        exact commonDivisor_of_le_one _ _ (le_trans (min_le_left _ _) (by omega))
    | succ a ih =>
      intro b g ha hb
      cases h : commonDivisor g.numerator g.denominator with
      | none => rw [reduceLoop_of_none _ _ h, reduceLoop_of_none _ _ h]
      | some j =>
        obtain ⟨h1, h2, _⟩ := tdiv_lt_of_commonDivisor _ _ _ h
        cases b with
        | zero => omega
        | succ b =>
          rw [reduceLoop_of_some _ _ _ h, reduceLoop_of_some _ _ _ h]
          exact ih b _ (by simp only; omega) (by simp only; omega)
  exact key fuel _ f hfuel (le_refl _)

theorem reduce_of_none (f : Fraction)
    (h : commonDivisor f.numerator f.denominator = none) : reduce f = f :=
  reduceLoop_of_none _ f h

theorem reduce_of_some (f : Fraction) (divisor : Int)
    (h : commonDivisor f.numerator f.denominator = some divisor) :
    reduce f = reduce ⟨Int.tdiv f.numerator divisor, Int.tdiv f.denominator divisor⟩ := by
  obtain ⟨h1, h2, _⟩ := tdiv_lt_of_commonDivisor _ _ _ h
  have hpos : 0 < f.numerator.toNat := by omega
  obtain ⟨m, hm⟩ := Nat.exists_eq_succ_of_ne_zero (Nat.pos_iff_ne_zero.1 hpos)
  rw [reduce, hm, reduceLoop_of_some _ _ _ h]
  exact reduceLoop_fuel_irrelevant _ _ (by simp only; omega)

theorem reduce_exit (f : Fraction) :
    commonDivisor (reduce f).numerator (reduce f).denominator = none :=
  reduceLoop_exit _ f (le_refl _)

theorem reduce_pos (f : Fraction) (hn : 1 ≤ f.numerator) (hd : 1 ≤ f.denominator) :
    1 ≤ (reduce f).numerator ∧ 1 ≤ (reduce f).denominator := by
  have key : ∀ (a : Nat) (g : Fraction), 1 ≤ g.numerator → 1 ≤ g.denominator →
      1 ≤ (reduceLoop a g).numerator ∧ 1 ≤ (reduceLoop a g).denominator := by
    intro a
    induction a with
    | zero => intro g h1 h2; exact ⟨h1, h2⟩
    | succ a ih =>
      intro g h1 h2
      cases h : commonDivisor g.numerator g.denominator with
      | none => rw [reduceLoop_of_none _ _ h]; exact ⟨h1, h2⟩
      | some j =>
        rw [reduceLoop_of_some _ _ _ h]
        obtain ⟨h3, _, h4⟩ := tdiv_lt_of_commonDivisor _ _ _ h
        exact ih _ h3 h4
  exact key _ f hn hd

theorem ofPair_of_none (a b : Int) (h : commonDivisor a b = none) : ofPair a b = ⟨a, b⟩ :=
  reduce_of_none ⟨a, b⟩ h

theorem ofPair_of_some (a b divisor : Int) (h : commonDivisor a b = some divisor) :
    ofPair a b = ofPair (Int.tdiv a divisor) (Int.tdiv b divisor) :=
  reduce_of_some ⟨a, b⟩ divisor h

theorem ofPair_2_3 : ofPair 2 3 = ⟨1, 1⟩ := by
  have h1 : commonDivisor 2 3 = some 2 := by
    simp [commonDivisor, commonDivisorLoop, quotientIsExact_eq]
  have h2 : commonDivisor 1 1 = none := commonDivisor_of_le_one 1 1 (by decide)
  rw [ofPair_of_some 2 3 2 h1, show Int.tdiv 2 2 = 1 from by decide,
    show Int.tdiv 3 2 = 1 from by decide, ofPair_of_none 1 1 h2]

theorem ofPair_2_4 : ofPair 2 4 = ⟨1, 2⟩ := by
  have h1 : commonDivisor 2 4 = some 2 := by
    simp [commonDivisor, commonDivisorLoop, quotientIsExact_eq]
  have h2 : commonDivisor 1 2 = none := commonDivisor_of_le_one 1 2 (by decide)
  rw [ofPair_of_some 2 4 2 h1, show Int.tdiv 2 2 = 1 from by decide,
    show Int.tdiv 4 2 = 2 from by decide, ofPair_of_none 1 2 h2]

theorem ofPair_ofPair (a b : Int) :
    ofPair (ofPair a b).numerator (ofPair a b).denominator = ofPair a b :=
  ofPair_of_none _ _ (reduce_exit ⟨a, b⟩)

theorem reduce_coprime (f : Fraction) (hn : 1 ≤ f.numerator) (hd : 1 ≤ f.denominator)
    (k : Int) (hk : 1 < k) : ¬ (k ∣ (reduce f).numerator ∧ k ∣ (reduce f).denominator) := by
  rintro ⟨hkn, hkd⟩
  obtain ⟨h1, h2⟩ := reduce_pos f hn hd
  have hexit := reduce_exit f
  rw [commonDivisor_eq_none_iff] at hexit
  exact hexit k (by omega) (Int.le_of_dvd (by omega) hkn) (Int.le_of_dvd (by omega) hkd) hkn

/-- With at least `numerator_` rounds the checked loop ends through `break`, on the pair
that `reduceLoop` computes. -/
theorem reduceChecked_eq (fuel : Nat) (f : Fraction) (hn : 1 ≤ f.numerator)
    (hfuel : f.numerator.toNat ≤ fuel) : reduceChecked fuel f = .ok (reduceLoop fuel f) := by
  induction fuel generalizing f with
  | zero => omega
  | succ fuel ih =>
    cases h : commonDivisor f.numerator f.denominator with
    | none => rw [reduceLoop_of_none _ _ h]; simp only [reduceChecked, h]
    | some j =>
      obtain ⟨h1, h2, _⟩ := tdiv_lt_of_commonDivisor _ _ _ h
      obtain ⟨hj, _⟩ := commonDivisor_some _ _ _ h
      rw [reduceLoop_of_some _ _ _ h]
      simp only [reduceChecked, h]
      rw [if_neg (by omega)]
      exact ih _ h1 (by simp only; omega)

theorem div_eq_ofPair (n d : Fraction) :
    div n d = ofPair (n.numerator * (inverse d).numerator)
      (n.denominator * (inverse d).denominator) := rfl

end Fraction

/-! ## Claims on `Fraction<int>` -/

/-- C1 (evaluation at the failing input): `Fraction<int>(2,3) + Fraction<int>(0,1)` has
`result()` equal to `1`, while `(2*1 + 0*3) / (3*1)` computed directly with truncating
division is `0`: the constructor turns `2/3` into `1/1`. -/
theorem add_result_2_3_0_1 :
    (Fraction.add (Fraction.ofPair 2 3) (Fraction.ofPair 0 1)).result = some 1 ∧
      Int.tdiv (2 * 1 + 0 * 3) (3 * 1) = 0 := by
  have h0 : Fraction.ofPair 0 1 = ⟨0, 1⟩ :=
    Fraction.ofPair_of_none 0 1 (commonDivisor_of_le_one 0 1 (by decide))
  have h1 : Fraction.ofPair 1 1 = ⟨1, 1⟩ :=
    Fraction.ofPair_of_none 1 1 (commonDivisor_of_le_one 1 1 (by decide))
  refine ⟨?_, by decide⟩
  rw [Fraction.ofPair_2_3, h0]
  simp only [Fraction.add, if_true, add_zero, h1]
  decide

/-- C2 (evaluation at the failing input): constructing `Fraction<int>(2,3)` stores the
pair `(1,1)`, although `gcd(2,3) = 1` and the lowest terms of `2/3` are `(2,3)`:
`commonDivisor(2,3)` answers `2`, which divides the numerator only. -/
theorem ofPair_2_3_not_lowest_terms :
    Fraction.ofPair 2 3 = ⟨1, 1⟩ ∧ Int.gcd 2 3 = 1 ∧
      (Fraction.ofPair 2 3).numerator ≠ 2 / (Int.gcd 2 3 : Int) ∧
      (Fraction.ofPair 2 3).denominator ≠ 3 / (Int.gcd 2 3 : Int) := by
  rw [Fraction.ofPair_2_3]
  decide

/-- C3 (counterexample): after `Fraction<int>(0,4)` the stored pair is `(0,4)` and after
`Fraction<int>(-2,4)` it is `(-2,4)`; `4`, respectively `2`, divides both fields, so the
reduced-form invariant fails for a zero and for a negative numerator. -/
theorem reducedForm_fails_zero_negative :
    ¬ reducedForm (Fraction.ofPair 0 4) ∧ ¬ reducedForm (Fraction.ofPair (-2) 4) := by
  rw [Fraction.ofPair_of_none 0 4 (commonDivisor_of_le_one 0 4 (by decide)),
    Fraction.ofPair_of_none (-2) 4 (commonDivisor_of_le_one (-2) 4 (by decide))]
  constructor
  · intro h
    exact h 4 (by decide) ⟨by decide, by decide⟩
  · intro h
    exact h 2 (by decide) ⟨by decide, by decide⟩

/-- C3 (amended): for integers `a ≥ 1` and `b ≥ 1`, after `Fraction<int>(a,b)` is
constructed no integer greater than `1` evenly divides both `numerator()` and
`denominator()`. -/
theorem reducedForm_ofPair_of_pos (a b : Int) (ha : 1 ≤ a) (hb : 1 ≤ b) :
    reducedForm (Fraction.ofPair a b) := by
  intro k hk ⟨hkn, hkd⟩
  obtain ⟨hn, hd⟩ := Fraction.reduce_pos ⟨a, b⟩ ha hb
  have hexit := Fraction.reduce_exit ⟨a, b⟩
  rw [commonDivisor_eq_none_iff] at hexit
  exact hexit k (by omega) (Int.le_of_dvd (by unfold Fraction.ofPair at *; omega) hkn)
    (Int.le_of_dvd (by unfold Fraction.ofPair at *; omega) hkd) hkn

/-- Witness for C3 (amended) at `a = 4`, `b = 6`. -/
theorem reducedForm_ofPair_of_pos_witness :
    (1 : Int) ≤ 4 ∧ (1 : Int) ≤ 6 ∧ reducedForm (Fraction.ofPair 4 6) :=
  ⟨by decide, by decide, reducedForm_ofPair_of_pos 4 6 (by decide) (by decide)⟩

/-- C9 (counterexample): `Fraction<int>(1,2) == Fraction<int>(2,4)` does not evaluate to
`false`. -/
theorem eq_1_2_2_4_not_false :
    ¬ (Fraction.eq (Fraction.ofPair 1 2) (Fraction.ofPair 2 4) = false) := by
  rw [Fraction.ofPair_2_4,
    Fraction.ofPair_of_none 1 2 (commonDivisor_of_le_one 1 2 (by decide))]
  decide

/-- C9 (amended): both constructions store the pair `(1,2)`, so
`Fraction<int>(1,2) == Fraction<int>(2,4)` evaluates to `true` and
`Fraction<int>(2,4) != Fraction<int>(1,2)` to `false`. -/
theorem eq_1_2_2_4 :
    Fraction.ofPair 1 2 = ⟨1, 2⟩ ∧ Fraction.ofPair 2 4 = ⟨1, 2⟩ ∧
      Fraction.eq (Fraction.ofPair 1 2) (Fraction.ofPair 2 4) = true ∧
      Fraction.ne (Fraction.ofPair 2 4) (Fraction.ofPair 1 2) = false := by
  rw [Fraction.ofPair_2_4,
    Fraction.ofPair_of_none 1 2 (commonDivisor_of_le_one 1 2 (by decide))]
  decide

/-- C10: reduction is idempotent: for all integers `a`, `b`, with
`f = Fraction<int>(a,b)`, the fraction `Fraction<int>(f.numerator(), f.denominator())`
has the same numerator and denominator as `f`. -/
theorem ofPair_idempotent (a b : Int) :
    (Fraction.ofPair (Fraction.ofPair a b).numerator (Fraction.ofPair a b).denominator).numerator
        = (Fraction.ofPair a b).numerator ∧
      (Fraction.ofPair (Fraction.ofPair a b).numerator (Fraction.ofPair a b).denominator).denominator
        = (Fraction.ofPair a b).denominator := by
  have h := Fraction.ofPair_of_none _ _ (Fraction.reduce_exit ⟨a, b⟩)
  unfold Fraction.ofPair at *
  rw [h]
  exact ⟨rfl, rfl⟩


/-- C11 (evaluation at the failing input): `f = Fraction<int>(5,2)` stores the pair `(5,2)`,
and `f.inverse()` stores `(1,2)`, not the swapped pair `(2,5)`: `inverse()` goes through the
reducing constructor, where `commonDivisor(2,5)` answers `2`. -/
theorem inverse_5_2_not_swapped :
    Fraction.ofPair 5 2 = ⟨5, 2⟩ ∧ Fraction.inverse (Fraction.ofPair 5 2) = ⟨1, 2⟩ ∧
      (Fraction.inverse (Fraction.ofPair 5 2)).numerator ≠ (Fraction.ofPair 5 2).denominator ∧
      (Fraction.inverse (Fraction.ofPair 5 2)).denominator ≠ (Fraction.ofPair 5 2).numerator := by
  have h52 : commonDivisor 5 2 = none := by
    simp [commonDivisor, commonDivisorLoop, quotientIsExact_eq]
  have h25 : commonDivisor 2 5 = some 2 := by
    simp [commonDivisor, commonDivisorLoop, quotientIsExact_eq]
  have h12 : commonDivisor 1 2 = none := commonDivisor_of_le_one 1 2 (by decide)
  have hf : Fraction.ofPair 5 2 = ⟨5, 2⟩ := Fraction.ofPair_of_none 5 2 h52
  have hinv : Fraction.inverse (Fraction.ofPair 5 2) = ⟨1, 2⟩ := by
    rw [hf]
    show Fraction.ofPair 2 5 = ⟨1, 2⟩
    rw [Fraction.ofPair_of_some 2 5 2 h25, show Int.tdiv 2 2 = 1 from by decide,
      show Int.tdiv 5 2 = 2 from by decide, Fraction.ofPair_of_none 1 2 h12]
  rw [hinv, hf]
  decide

/-- C16 (evaluation at the failing input): `2` and `3` are coprime, yet `commonDivisor(2, 3)`
returns `2`, a divisor of the first operand only. -/
theorem commonDivisor_2_3_coprime :
    (∀ k : Int, 1 < k → ¬ (k ∣ 2 ∧ k ∣ 3)) ∧ commonDivisor 2 3 = some 2 := by
  constructor
  · rintro k hk ⟨h2, h3⟩
    have h1 : k ∣ 3 - 2 := Int.dvd_sub h3 h2
    have := Int.le_of_dvd (by decide) h1
    omega
  · simp [commonDivisor, commonDivisorLoop, quotientIsExact_eq]

/-- C18: for all `Fraction<int>` values `n` and `d`, `Fraction<Fraction<int>>(n, d).result()`
has the numerator and the denominator of `n / d` computed with `Fraction<int>::operator/`. -/
theorem nested_result (n d : Fraction) :
    (NestedFraction.ofPair n d).result.numerator = (Fraction.div n d).numerator ∧
      (NestedFraction.ofPair n d).result.denominator = (Fraction.div n d).denominator := by
  have h11 : Fraction.inverse (Fraction.ofValue 1) = ⟨1, 1⟩ :=
    Fraction.ofPair_of_none 1 1 (commonDivisor_of_le_one 1 1 (by decide))
  have h : (NestedFraction.ofPair n d).result = Fraction.div n d := by
    show Fraction.div (Fraction.div n d) (Fraction.ofValue 1) = Fraction.div n d
    rw [Fraction.div_eq_ofPair (Fraction.div n d), h11]
    simp only [mul_one]
    rw [Fraction.div_eq_ofPair n d]
    exact Fraction.ofPair_ofPair _ _
  rw [h]
  exact ⟨rfl, rfl⟩

/-- C19: for all integers `a ≥ 1` and `b ≥ 1`, the reduction loop run by `Fraction<int>(a,b)`
terminates (any bound of at least `a` rounds leaves it through `break`, with the pair the
constructor stores), never divides by zero, and leaves `numerator() ≥ 1` and
`denominator() ≥ 1` with `gcd(numerator(), denominator()) == 1`. -/
theorem reduce_terminates_coprime (a b : Int) (ha : 1 ≤ a) (hb : 1 ≤ b) :
    (∀ fuel, a.toNat ≤ fuel →
        Fraction.reduceChecked fuel ⟨a, b⟩ = .ok (Fraction.ofPair a b)) ∧
      1 ≤ (Fraction.ofPair a b).numerator ∧ 1 ≤ (Fraction.ofPair a b).denominator ∧
      Int.gcd (Fraction.ofPair a b).numerator (Fraction.ofPair a b).denominator = 1 := by
  obtain ⟨hn, hd⟩ := Fraction.reduce_pos ⟨a, b⟩ ha hb
  refine ⟨?_, hn, hd, ?_⟩
  · intro fuel hfuel
    rw [Fraction.reduceChecked_eq fuel ⟨a, b⟩ ha hfuel,
      Fraction.reduceLoop_fuel_irrelevant fuel ⟨a, b⟩ hfuel]
    rfl
  · by_contra hg
    have hpos : 0 < Int.gcd (Fraction.reduce ⟨a, b⟩).numerator
        (Fraction.reduce ⟨a, b⟩).denominator :=
      Int.gcd_pos_of_ne_zero_left _ (by omega)
    refine Fraction.reduce_coprime ⟨a, b⟩ ha hb
      (Int.gcd (Fraction.reduce ⟨a, b⟩).numerator (Fraction.reduce ⟨a, b⟩).denominator : Int)
      ?_ ⟨Int.gcd_dvd_left, Int.gcd_dvd_right⟩
    have : Int.gcd (Fraction.reduce ⟨a, b⟩).numerator (Fraction.reduce ⟨a, b⟩).denominator ≠ 1 :=
      hg
    omega

/-- Witness for C19 at `a = 4`, `b = 6`. -/
theorem reduce_terminates_coprime_witness :
    (1 : Int) ≤ 4 ∧ (1 : Int) ≤ 6 ∧
      Fraction.reduceChecked 4 ⟨4, 6⟩ = .ok (Fraction.ofPair 4 6) ∧
      Int.gcd (Fraction.ofPair 4 6).numerator (Fraction.ofPair 4 6).denominator = 1 :=
  ⟨by decide, by decide,
    (reduce_terminates_coprime 4 6 (by decide) (by decide)).1 4 (by decide),
    (reduce_terminates_coprime 4 6 (by decide) (by decide)).2.2.2⟩

/-! ## Facts about the matrix loops -/

namespace Matrix

variable {T : Type}

theorem foldl_add_eq_sum [Ring T] (g : Nat → T) (n : Nat) :
    (List.range n).foldl (fun val i => val + g i) 0 = ∑ i in Finset.range n, g i := by
  induction n with
  | zero => rfl
  | succ n ih => rw [List.range_succ, List.foldl_append, ih, Finset.sum_range_succ]; rfl

theorem foldl_alternate_eq_sum [Ring T] (g : Nat → T) (n : Nat) :
    (List.range n).foldl (fun determinant i =>
        if i % 2 = 0 then determinant + g i else determinant - g i) 0
      = ∑ i in Finset.range n, (-1) ^ i * g i := by
  induction n with
  | zero => rfl
  | succ n ih =>
    rw [List.range_succ, List.foldl_append, ih, Finset.sum_range_succ]
    simp only [List.foldl_cons, List.foldl_nil]
    rcases Nat.even_or_odd n with h | h
    · rw [if_pos (Nat.even_iff.1 h), h.neg_one_pow, one_mul]
    · rw [if_neg (by rw [Nat.odd_iff.1 h]; decide), h.neg_one_pow]
      simp [sub_eq_add_neg]

/-- The entry of the product at `(line, column)`, as the inner loop accumulates it. -/
theorem mulLoop_eq [Ring T] (Size : Nat) (first second : List T) (remaining line column : Nat)
    (hc : column < Size) :
    mulLoop Size first second remaining line column =
      (List.range remaining).map fun k =>
        ∑ i in Finset.range Size,
          first.getD ((line * Size + column + k) / Size * Size + i) 0 *
            second.getD (i * Size + (line * Size + column + k) % Size) 0 := by
  induction remaining generalizing line column with
  | zero => rfl
  | succ remaining ih =>
    have hS : 0 < Size := by omega
    rw [mulLoop, List.range_succ_eq_map, List.map_cons, List.map_map, foldl_add_eq_sum]
    congr 1
    · have h1 : (line * Size + column + 0) / Size = line := by
        rw [Nat.add_zero, Nat.mul_comm, Nat.mul_add_div hS, Nat.div_eq_of_lt hc, Nat.add_zero]
      have h2 : (line * Size + column + 0) % Size = column := by
        rw [Nat.add_zero, Nat.mul_comm, Nat.mul_add_mod, Nat.mod_eq_of_lt hc]
      rw [h1, h2]
    · split
      · rename_i h
        rw [ih (line + 1) 0 hS]
        apply List.map_congr_left
        intro k _
        have : (line + 1) * Size + 0 + k = line * Size + column + Nat.succ k := by
          rw [Nat.add_mul]; omega
        simp only [Function.comp, this]
      · rename_i h
        rw [ih line (column + 1) (by omega)]
        apply List.map_congr_left
        intro k _
        have : line * Size + (column + 1) + k = line * Size + column + Nat.succ k := by omega
        simp only [Function.comp, this]

theorem mul_eq [Ring T] (Size : Nat) (first second : List T) :
    mul Size first second =
      (List.range (Size * Size)).map fun k =>
        ∑ i in Finset.range Size,
          first.getD (k / Size * Size + i) 0 * second.getD (i * Size + k % Size) 0 := by
  rcases Nat.eq_zero_or_pos Size with rfl | hS
  · rfl
  · rw [mul, mulLoop_eq Size first second _ 0 0 hS]
    simp

theorem length_mul [Ring T] (Size : Nat) (first second : List T) :
    (mul Size first second).length = Size * Size := by
  rw [mul_eq]; simp

theorem getD_mul [Ring T] (Size : Nat) (first second : List T) (line column : Nat)
    (hl : line < Size) (hc : column < Size) :
    (mul Size first second).getD (line * Size + column) 0 =
      ∑ i in Finset.range Size,
        first.getD (line * Size + i) 0 * second.getD (i * Size + column) 0 := by
  have hS : 0 < Size := by omega
  have hlt : line * Size + column < Size * Size := by
    calc line * Size + column < line * Size + Size := by omega
      _ = (line + 1) * Size := by rw [Nat.add_mul, Nat.one_mul]
      _ ≤ Size * Size := Nat.mul_le_mul_right _ hl
  have h1 : (line * Size + column) / Size = line := by
    rw [Nat.mul_comm, Nat.mul_add_div hS, Nat.div_eq_of_lt hc, Nat.add_zero]
  have h2 : (line * Size + column) % Size = column := by
    rw [Nat.mul_comm, Nat.mul_add_mod, Nat.mod_eq_of_lt hc]
  rw [mul_eq, List.getD_eq_getElem?_getD, List.getElem?_map, List.getElem?_range hlt]
  simp only [Option.map_some', Option.getD_some, h1, h2]

theorem length_identity [Zero T] [One T] (Size : Nat) :
    (identity Size : List T).length = Size * Size := by
  have key : ∀ (n : Nat) (l : List T),
      ((List.range n).foldl (fun coefs i => coefs.set (i * (Size + 1)) 1) l).length
        = l.length := by
    intro n
    induction n with
    | zero => intro l; rfl
    | succ n ih => intro l; rw [List.range_succ, List.foldl_append]; simp [ih]
  rw [identity, key]; simp

theorem getD_identity [Zero T] [One T] (Size : Nat) (line column : Nat)
    (hl : line < Size) (hc : column < Size) :
    (identity Size : List T).getD (line * Size + column) 0 = if line = column then 1 else 0 := by
  have hlt : line * Size + column < Size * Size := by
    calc line * Size + column < line * Size + Size := by omega
      _ = (line + 1) * Size := by rw [Nat.add_mul, Nat.one_mul]
      _ ≤ Size * Size := Nat.mul_le_mul_right _ hl
  have key : ∀ (n : Nat), n ≤ Size →
      (((List.range n).foldl (fun coefs i => coefs.set (i * (Size + 1)) 1)
          (List.replicate (Size * Size) (0 : T))).length = Size * Size) ∧
      ((List.range n).foldl (fun coefs i => coefs.set (i * (Size + 1)) 1)
          (List.replicate (Size * Size) (0 : T))).getD (line * Size + column) 0
        = if line = column ∧ line < n then 1 else 0 := by
    intro n
    induction n with
    | zero => intro _; simp [List.getD_eq_getElem?_getD, List.getElem?_replicate, hlt]
    | succ n ih =>
      intro hn
      obtain ⟨hlen, hget⟩ := ih (by omega)
      rw [List.range_succ, List.foldl_append]
      simp only [List.foldl_cons, List.foldl_nil]
      refine ⟨by rw [List.length_set, hlen], ?_⟩
      rw [List.getD_eq_getElem?_getD, List.getElem?_set, hlen]
      rw [List.getD_eq_getElem?_getD] at hget
      have hn1 : n * (Size + 1) = n * Size + n := by ring
      by_cases hidx : n * (Size + 1) = line * Size + column
      · have h1 : n = line := by
          have := congrArg (· / Size) hidx
          simp only [hn1] at this
          rwa [Nat.mul_comm n, Nat.mul_comm line, Nat.mul_add_div (by omega),
            Nat.mul_add_div (by omega), Nat.div_eq_of_lt (by omega), Nat.div_eq_of_lt hc] at this
        have h2 : n = column := by subst h1; rw [hn1] at hidx; omega
        rw [if_pos hidx, if_pos (by rw [hidx]; exact hlt), if_pos ⟨by omega, by omega⟩]
        rfl
      · rw [if_neg hidx, hget]
        by_cases hlc : line = column
        · have hne : line ≠ n := by
            intro h; apply hidx; rw [hn1, ← hlc, h]
          simp only [hlc, true_and]
          have : column ≠ n := by omega
          by_cases hcn : column < n
          · rw [if_pos hcn, if_pos (by omega)]
          · rw [if_neg hcn, if_neg (by omega)]
        · simp [hlc]
  have := (key Size (le_refl _)).2
  rw [identity, this]
  simp [hl]

/-- One write `subCoefs[coefsCopied++] = v`. -/
theorem foldl_write (vals arr : List T) (p : Nat) (h : p + vals.length ≤ arr.length) :
    vals.foldl (fun (state : List T × Nat) v => (state.1.set state.2 v, state.2 + 1)) (arr, p)
      = (arr.take p ++ vals ++ arr.drop (p + vals.length), p + vals.length) := by
  induction vals generalizing arr p with
  | nil => simp
  | cons v vals ih =>
    simp only [List.foldl_cons, List.length_cons] at h ⊢
    rw [ih (arr.set p v) (p + 1) (by rw [List.length_set]; omega)]
    have hp : p < arr.length := by omega
    congr 1
    · rw [List.set_take, List.drop_set_of_lt _ _ (by omega)]
      have : (arr.take (p + 1)).set p v = arr.take p ++ [v] := by
        rw [List.take_succ, List.getElem?_eq_getElem hp]
        simp only [Option.toList_some]
        rw [List.set_append_right _ _ (by simp)]
        simp [List.length_take, Nat.min_eq_left (le_of_lt hp)]
      rw [this, show p + 1 + vals.length = p + (vals.length + 1) from by omega]
      simp
    · omega

theorem foldl_filter_write (l : List Nat) (P : Nat → Prop) [DecidablePred P] (g : Nat → T)
    (state : List T × Nat) :
    l.foldl (fun (state : List T × Nat) column =>
        if P column then (state.1.set state.2 (g column), state.2 + 1) else state) state
      = ((l.filter fun column => decide (P column)).map g).foldl
          (fun (state : List T × Nat) v => (state.1.set state.2 v, state.2 + 1)) state := by
  induction l generalizing state with
  | nil => rfl
  | cons c l ih =>
    simp only [List.foldl_cons, List.filter_cons]
    by_cases hc : P c
    · simp only [hc, if_true, decide_True, List.map_cons, List.foldl_cons]; exact ih _
    · simp only [hc, if_false, decide_False]; exact ih _

theorem foldl_flatMap_write (l : List Nat) (vals : Nat → List T) (state : List T × Nat) :
    l.foldl (fun state line => (vals line).foldl
        (fun (state : List T × Nat) v => (state.1.set state.2 v, state.2 + 1)) state) state
      = (l.flatMap vals).foldl
          (fun (state : List T × Nat) v => (state.1.set state.2 v, state.2 + 1)) state := by
  induction l generalizing state with
  | nil => rfl
  | cons c l ih =>
    simp only [List.foldl_cons, List.flatMap_cons, List.foldl_append]; exact ih _

/-- The values that `subMatrix` copies, in the order of the copy. -/
theorem subMatrix_eq_foldl_write [Zero T] (Size : Nat) (coefs : List T)
    (lineToErase columnToErase : Nat) :
    subMatrix Size coefs lineToErase columnToErase =
      (((List.range Size).flatMap fun line =>
          ((List.range Size).filter fun column =>
            decide (line ≠ lineToErase ∧ column ≠ columnToErase)).map
              fun column => coefs.getD (line * Size + column) 0).foldl
        (fun (state : List T × Nat) v => (state.1.set state.2 v, state.2 + 1))
        (List.replicate ((Size - 1) * (Size - 1)) 0, 0)).1 := by
  unfold subMatrix
  rw [← foldl_flatMap_write]
  congr 2
  funext state line
  exact foldl_filter_write _ _ _ _

theorem filter_ne_range (m i : Nat) (hi : i ≤ m) :
    (List.range (m + 1)).filter (fun column => decide (column ≠ i))
      = (List.range m).map fun c => if c < i then c else c + 1 := by
  induction m with
  | zero =>
    have : i = 0 := by omega
    subst this; rfl
  | succ m ih =>
    rw [List.range_succ, List.filter_append]
    rcases Nat.lt_or_ge i (m + 1) with hlt | hge
    · rw [ih (by omega), List.range_succ, List.map_append]
      simp only [List.map_cons, List.map_nil, List.filter_cons, List.filter_nil]
      rw [if_pos (by simp; omega), if_neg (by omega)]
    · have him : i = m + 1 := by omega
      subst him
      have h1 : (List.range (m + 1)).filter (fun column => decide (column ≠ m + 1))
          = List.range (m + 1) := by
        apply List.filter_eq_self.2
        intro c hc
        have := List.mem_range.1 hc
        simp; omega
      have h2 : ([m + 1].filter fun column => decide (column ≠ m + 1)) = [] := by simp
      rw [h1, h2, List.append_nil]
      symm
      conv_rhs => rw [← List.map_id (List.range (m + 1))]
      apply List.map_congr_left
      intro c hc
      rw [if_pos (List.mem_range.1 hc)]; rfl

theorem length_flatMap_range_map (a m : Nat) (f : Nat → Nat → T) :
    ((List.range a).flatMap fun r => (List.range m).map (f r)).length = a * m := by
  induction a with
  | zero => simp
  | succ a ih =>
    rw [List.range_succ, List.flatMap_append, List.length_append, ih]
    simp [Nat.succ_mul]

theorem getD_flatMap_range_map (a m : Nat) (f : Nat → Nat → T) (d : T) (r c : Nat)
    (hr : r < a) (hc : c < m) :
    ((List.range a).flatMap fun r => (List.range m).map (f r)).getD (r * m + c) d = f r c := by
  induction a with
  | zero => omega
  | succ a ih =>
    rw [List.range_succ, List.flatMap_append]
    rcases Nat.lt_or_ge r a with hlt | hge
    · have hidx : r * m + c < a * m := by
        calc r * m + c < r * m + m := by omega
          _ = (r + 1) * m := by rw [Nat.add_mul, Nat.one_mul]
          _ ≤ a * m := Nat.mul_le_mul_right _ hlt
      rw [List.getD_append _ _ _ _ (by rw [length_flatMap_range_map]; exact hidx)]
      exact ih hlt
    · have hra : r = a := by omega
      subst hra
      rw [List.getD_append_right _ _ _ _ (by rw [length_flatMap_range_map]; omega),
        length_flatMap_range_map]
      simp only [List.flatMap_cons, List.flatMap_nil, List.append_nil, Nat.add_sub_cancel_left]
      rw [List.getD_eq_getElem?_getD, List.getElem?_map, List.getElem?_range hc]
      rfl

/-- The minor `subMatrix(0, i)`: row `0` and column `i` are removed. -/
theorem subMatrix_zero_eq [Zero T] (m : Nat) (coefs : List T) (i : Nat) (hi : i ≤ m) :
    subMatrix (m + 1) coefs 0 i =
      (List.range m).flatMap fun r => (List.range m).map fun c =>
        coefs.getD ((r + 1) * (m + 1) + (if c < i then c else c + 1)) 0 := by
  have hvals : ((List.range (m + 1)).flatMap fun line =>
      ((List.range (m + 1)).filter fun column => decide (line ≠ 0 ∧ column ≠ i)).map
        fun column => coefs.getD (line * (m + 1) + column) 0)
      = (List.range m).flatMap fun r => (List.range m).map fun c =>
        coefs.getD ((r + 1) * (m + 1) + (if c < i then c else c + 1)) 0 := by
    rw [List.range_succ_eq_map, List.flatMap_cons]
    have h0 : ((0 :: List.map Nat.succ (List.range m)).filter
        fun column => decide ((0 : Nat) ≠ 0 ∧ column ≠ i)) = [] := by
      apply List.filter_eq_nil_iff.2
      intro c _; simp
    rw [h0, List.map_nil, List.nil_append, List.flatMap_map]
    apply List.flatMap_congr
    intro r _
    have hf : ((0 :: List.map Nat.succ (List.range m)).filter
        fun column => decide (Nat.succ r ≠ 0 ∧ column ≠ i))
        = (List.range m).map fun c => if c < i then c else c + 1 := by
      rw [← List.range_succ_eq_map, ← filter_ne_range m i hi]
      apply List.filter_congr
      intro c _; simp
    rw [hf, List.map_map]
    rfl
  rw [subMatrix_eq_foldl_write, hvals, foldl_write _ _ _ (by
    rw [length_flatMap_range_map]; simp)]
  simp only [List.take_zero, List.nil_append, Nat.zero_add]
  rw [length_flatMap_range_map, List.drop_eq_nil_of_le (by simp), List.append_nil]

theorem toMatrix_subMatrix_zero [Zero T] (m : Nat) (coefs : List T) (i : Fin (m + 1)) :
    toMatrix m (subMatrix (m + 1) coefs 0 i.val)
      = (toMatrix (m + 1) coefs).submatrix Fin.succ i.succAbove := by
  funext r c
  rw [Matrix.submatrix_apply]
  unfold toMatrix
  rw [subMatrix_zero_eq m coefs i.val (Nat.le_of_lt_succ i.isLt),
    getD_flatMap_range_map m m _ 0 r.val c.val r.isLt c.isLt]
  congr 2
  unfold Fin.succAbove
  by_cases h : c.val < i.val
  · rw [if_pos h, if_pos (by rw [Fin.lt_def]; simpa using h)]; rfl
  · rw [if_neg h, if_neg (by rw [Fin.lt_def]; simpa using h)]; rfl

/-- The cofactor expansion of `det` computes the determinant of the matrix denoted by the
coefficients. -/
theorem det_eq_det_toMatrix [CommRing T] (n : Nat) (coefs : List T) :
    det (n + 1) coefs = (toMatrix (n + 1) coefs).det := by
  induction n generalizing coefs with
  | zero =>
    rw [Matrix.det_fin_one]
    rfl
  | succ n ih =>
    cases n with
    | zero =>
      rw [Matrix.det_fin_two]
      simp only [det, toMatrix]
      simp only [Fin.val_zero, Fin.val_one, Nat.zero_mul, Nat.one_mul, Nat.zero_add]
      ring
    | succ n =>
      rw [Matrix.det_succ_row_zero]
      simp only [det]
      rw [foldl_alternate_eq_sum, Finset.sum_range]
      apply Finset.sum_congr rfl
      intro j _
      rw [ih, toMatrix_subMatrix_zero (n + 2) coefs j, mul_assoc]
      congr 2
      simp [toMatrix]

/-! ### Loops that write `coefs[index] = value` -/

theorem lineColumn_lt (N line column : Nat) (hl : line < N) (hc : column < N) :
    line * N + column < N * N := by
  calc line * N + column < line * N + N := by omega
    _ = (line + 1) * N := by rw [Nat.add_mul, Nat.one_mul]
    _ ≤ N * N := Nat.mul_le_mul_right _ hl

theorem lineColumn_div (N line column : Nat) (hc : column < N) :
    (line * N + column) / N = line := by
  rw [Nat.mul_comm, Nat.mul_add_div (by omega), Nat.div_eq_of_lt hc, Nat.add_zero]

theorem lineColumn_mod (N line column : Nat) (hc : column < N) :
    (line * N + column) % N = column := by
  rw [Nat.mul_comm, Nat.mul_add_mod, Nat.mod_eq_of_lt hc]

/-- An index inside the array is not changed by the wrap-around of `std::size_t`. -/
theorem wrap_eq (N x : Nat) (h : x < N * N) : x % sizeModulus N = x :=
  Nat.mod_eq_of_lt (lt_of_lt_of_le h (le_trans (Nat.le_succ _) (le_max_right _ _)))

/-- Two `N × N` coefficient arrays with the same entry at every `(line, column)` are equal. -/
theorem ext_lineColumn (N : Nat) (A B : List T) (d : T) (hA : A.length = N * N)
    (hB : B.length = N * N)
    (h : ∀ line column, line < N → column < N →
      A.getD (line * N + column) d = B.getD (line * N + column) d) : A = B := by
  apply List.ext_getElem (by rw [hA, hB])
  intro k h1 h2
  have hk : k < N * N := by omega
  have hN : 0 < N := by
    rcases Nat.eq_zero_or_pos N with h0 | h0
    · subst h0; omega
    · exact h0
  have := h (k / N) (k % N) (Nat.div_lt_of_lt_mul hk) (Nat.mod_lt _ hN)
  rw [Nat.div_add_mod', List.getD_eq_getElem _ _ h1, List.getD_eq_getElem _ _ h2] at this
  exact this

theorem length_foldl_set (ps : List (Nat × T)) (init : List T) :
    (ps.foldl (fun l p => l.set p.1 p.2) init).length = init.length := by
  induction ps generalizing init with
  | nil => rfl
  | cons p ps ih => rw [List.foldl_cons, ih, List.length_set]

theorem getD_foldl_set (ps : List (Nat × T)) (F : Nat → T) (init : List T) (d : T) (k : Nat)
    (hF : ∀ p ∈ ps, p.2 = F p.1) :
    (ps.foldl (fun l p => l.set p.1 p.2) init).getD k d
      = if (∃ p ∈ ps, p.1 = k) ∧ k < init.length then F k else init.getD k d := by
  induction ps generalizing init with
  | nil => simp
  | cons p ps ih =>
    rw [List.foldl_cons, ih _ (fun q hq => hF q (List.mem_cons_of_mem _ hq)), List.length_set]
    have hp := hF p (List.mem_cons_self _ _)
    by_cases hk : k < init.length
    · by_cases h1 : ∃ q ∈ ps, q.1 = k
      · have h2 : ∃ q ∈ p :: ps, q.1 = k := by
          obtain ⟨q, hq, hqk⟩ := h1
          exact ⟨q, List.mem_cons_of_mem _ hq, hqk⟩
        rw [if_pos ⟨h1, hk⟩, if_pos ⟨h2, hk⟩]
      · rw [if_neg (fun h => h1 h.1)]
        rw [List.getD_eq_getElem?_getD, List.getElem?_set]
        by_cases hpk : p.1 = k
        · rw [if_pos hpk, if_pos (by omega), if_pos ⟨⟨p, List.mem_cons_self _ _, hpk⟩, hk⟩,
            hp, hpk]
          rfl
        · rw [if_neg hpk, if_neg, List.getD_eq_getElem?_getD]
          rintro ⟨⟨q, hq, hqk⟩, _⟩
          rcases List.mem_cons.1 hq with rfl | hq
          · exact hpk hqk
          · exact h1 ⟨q, hq, hqk⟩
    · rw [if_neg (fun h => hk h.2), if_neg (fun h => hk h.2)]
      rw [List.getD_eq_getElem?_getD, List.getElem?_set, List.getD_eq_getElem?_getD]
      by_cases hpk : p.1 = k
      · rw [if_pos hpk, if_neg (by omega), List.getElem?_eq_none (by omega)]
      · rw [if_neg hpk]

theorem foldl_foldl_eq_foldl_flatMap {α β γ : Type} (l : List α) (f : α → List β)
    (g : γ → β → γ) (s : γ) :
    l.foldl (fun s x => (f x).foldl g s) s = (l.flatMap f).foldl g s := by
  induction l generalizing s with
  | nil => rfl
  | cons x l ih => simp only [List.foldl_cons, List.flatMap_cons, List.foldl_append]; exact ih _

/-- The two nested loops over `line < a` and `column < b` writing
`coefs[index line column] = value line column`, as one sequence of writes. -/
theorem nested_set_eq (a b : Nat) (index : Nat → Nat → Nat) (value : Nat → Nat → T)
    (init : List T) :
    (List.range a).foldl (fun coefs line =>
        (List.range b).foldl (fun (coefs : List T) column =>
          coefs.set (index line column) (value line column)) coefs) init
      = ((List.range a).flatMap fun line => (List.range b).map fun column =>
          (index line column, value line column)).foldl (fun l p => l.set p.1 p.2) init := by
  rw [← foldl_foldl_eq_foldl_flatMap]
  congr 1
  funext coefs line
  rw [List.foldl_map]

theorem length_nested_set (a b : Nat) (index : Nat → Nat → Nat) (value : Nat → Nat → T)
    (init : List T) :
    ((List.range a).foldl (fun coefs line =>
        (List.range b).foldl (fun (coefs : List T) column =>
          coefs.set (index line column) (value line column)) coefs) init).length
      = init.length := by
  rw [nested_set_eq, length_foldl_set]

theorem mem_nested_iff (a b : Nat) (index : Nat → Nat → Nat) (value : Nat → Nat → T)
    (k : Nat) :
    (∃ p ∈ (List.range a).flatMap fun line => (List.range b).map fun column =>
        (index line column, value line column), p.1 = k)
      ↔ ∃ line column, line < a ∧ column < b ∧ index line column = k := by
  constructor
  · rintro ⟨p, hp, hpk⟩
    obtain ⟨line, hline, hp⟩ := List.mem_flatMap.1 hp
    obtain ⟨column, hcolumn, rfl⟩ := List.mem_map.1 hp
    exact ⟨line, column, List.mem_range.1 hline, List.mem_range.1 hcolumn, hpk⟩
  · rintro ⟨line, column, hl, hc, hk⟩
    exact ⟨(index line column, value line column),
      List.mem_flatMap.2 ⟨line, List.mem_range.2 hl,
        List.mem_map.2 ⟨column, List.mem_range.2 hc, rfl⟩⟩, hk⟩

/-- After the nested loops, an entry that some round wrote holds the value written there. -/
theorem getD_nested_set_written (a b : Nat) (index : Nat → Nat → Nat)
    (value : Nat → Nat → T) (F : Nat → T) (init : List T) (d : T) (line column : Nat)
    (hF : ∀ line column, line < a → column < b → value line column = F (index line column))
    (hl : line < a) (hc : column < b) (hk : index line column < init.length) :
    ((List.range a).foldl (fun coefs line =>
        (List.range b).foldl (fun (coefs : List T) column =>
          coefs.set (index line column) (value line column)) coefs) init).getD
        (index line column) d
      = F (index line column) := by
  rw [nested_set_eq, getD_foldl_set _ F]
  · rw [if_pos ⟨(mem_nested_iff a b index value _).2 ⟨line, column, hl, hc, rfl⟩, hk⟩]
  · intro p hp
    obtain ⟨line, hline, hp⟩ := List.mem_flatMap.1 hp
    obtain ⟨column, hcolumn, rfl⟩ := List.mem_map.1 hp
    exact hF line column (List.mem_range.1 hline) (List.mem_range.1 hcolumn)

/-- After the nested loops, an entry that no round wrote is untouched. -/
theorem getD_nested_set_untouched (a b : Nat) (index : Nat → Nat → Nat)
    (value : Nat → Nat → T) (init : List T) (d : T) (k : Nat)
    (hk : ∀ line column, line < a → column < b → index line column ≠ k) :
    ((List.range a).foldl (fun coefs line =>
        (List.range b).foldl (fun (coefs : List T) column =>
          coefs.set (index line column) (value line column)) coefs) init).getD k d
      = init.getD k d := by
  have key : ∀ (ps : List (Nat × T)) (init : List T), (∀ p ∈ ps, p.1 ≠ k) →
      (ps.foldl (fun l p => l.set p.1 p.2) init).getD k d = init.getD k d := by
    intro ps
    induction ps with
    | nil => intro init _; rfl
    | cons p ps ih =>
      intro init h
      rw [List.foldl_cons, ih _ (fun q hq => h q (List.mem_cons_of_mem _ hq)),
        List.getD_eq_getElem?_getD, List.getElem?_set,
        if_neg (h p (List.mem_cons_self _ _)), List.getD_eq_getElem?_getD]
  rw [nested_set_eq]
  apply key
  intro p hp hpk
  obtain ⟨line, column, hl, hc, hidx⟩ := (mem_nested_iff a b index value k).1 ⟨p, hp, hpk⟩
  exact hk line column hl hc hidx

/-! ### `transpose` -/

theorem length_transpose [Zero T] (N : Nat) (coefs : List T) :
    (transpose N coefs).length = N * N := by
  rw [transpose, length_nested_set, List.length_replicate]

theorem getD_transpose [Zero T] (N : Nat) (coefs : List T) (line column : Nat)
    (hl : line < N) (hc : column < N) :
    (transpose N coefs).getD (line * N + column) 0 = coefs.getD (column * N + line) 0 := by
  have h := getD_nested_set_written N N (fun line column => column * N + line)
    (fun line column => coefs.getD (line * N + column) 0)
    (fun k => coefs.getD (k % N * N + k / N) 0) (List.replicate (N * N) 0) 0 column line
    (fun l c hl2 _ => by
      simp only [lineColumn_div N c l hl2, lineColumn_mod N c l hl2])
    hc hl (by rw [List.length_replicate]; exact lineColumn_lt N line column hl hc)
  simp only [lineColumn_div N line column hc, lineColumn_mod N line column hc] at h
  exact h

/-! ### `resized` -/

theorem foldlM_ok {α β ε : Type} (l : List α) (step : β → α → Except ε β) (g : β → α → β)
    (h : ∀ x ∈ l, ∀ s, step s x = .ok (g s x)) (s : β) :
    l.foldlM step s = .ok (l.foldl g s) := by
  induction l generalizing s with
  | nil => rfl
  | cons x l ih =>
    rw [List.foldlM_cons, h x (List.mem_cons_self _ _) s, List.foldl_cons]
    exact ih (fun y hy => h y (List.mem_cons_of_mem _ hy)) _

/-- Between different sizes no access of `resized` is out of range, and the result is what
the two loops write into the zero matrix. -/
theorem resized_ok [Zero T] (Size NewSize : Nat) (coefs : List T) (h : Size ≠ NewSize) :
    resized Size NewSize coefs = .ok
      ((List.range (min Size NewSize)).foldl (fun result line =>
        (List.range (min Size NewSize)).foldl (fun (result : List T) column =>
          result.set (line * NewSize + column) (coefs.getD (line * Size + column) 0)) result)
        (List.replicate (NewSize * NewSize) 0)) := by
  unfold resized
  rw [if_neg h]
  apply foldlM_ok
  intro line hline result
  apply foldlM_ok
  intro column hcolumn result
  have hl := List.mem_range.1 hline
  have hc := List.mem_range.1 hcolumn
  have h1 : line * Size + column < Size * Size :=
    lineColumn_lt Size line column (lt_of_lt_of_le hl (min_le_left _ _))
      (lt_of_lt_of_le hc (min_le_left _ _))
  have h2 : line * NewSize + column < NewSize * NewSize :=
    lineColumn_lt NewSize line column (lt_of_lt_of_le hl (min_le_right _ _))
      (lt_of_lt_of_le hc (min_le_right _ _))
  simp only [atLineColumn, atIndex, setAtLineColumn, wrap_eq _ _ h1, wrap_eq _ _ h2,
    if_pos h1, if_pos h2]
  rfl

theorem lineColumn_injective (K l c line column : Nat) (hc : c < K) (hcolumn : column < K)
    (h : l * K + c = line * K + column) : l = line ∧ c = column := by
  have h1 := lineColumn_div K l c hc
  have h2 := lineColumn_mod K l c hc
  rw [h, lineColumn_div K line column hcolumn] at h1
  rw [h, lineColumn_mod K line column hcolumn] at h2
  exact ⟨h1.symm, h2.symm⟩

/-! ### `power` and `isNilpotent` -/

theorem toMatrix_mul [Ring T] (N : Nat) (A B : List T) :
    toMatrix N (mul N A B) = toMatrix N A * toMatrix N B := by
  funext line column
  rw [Matrix.mul_apply]
  unfold toMatrix
  rw [getD_mul N A B line.val column.val line.isLt column.isLt, Finset.sum_range]

theorem toMatrix_identity [Ring T] (N : Nat) : toMatrix N (identity N : List T) = 1 := by
  funext line column
  rw [Matrix.one_apply]
  unfold toMatrix
  rw [getD_identity N line.val column.val line.isLt column.isLt]
  simp only [Fin.ext_iff]

theorem toMatrix_zero [Zero T] (N : Nat) : toMatrix N (List.replicate (N * N) (0 : T)) = 0 := by
  funext line column
  unfold toMatrix
  rw [List.getD_eq_getElem?_getD, List.getElem?_replicate,
    if_pos (lineColumn_lt N line.val column.val line.isLt column.isLt)]
  rfl

theorem eq_of_toMatrix_eq [Zero T] (N : Nat) (A B : List T) (hA : A.length = N * N)
    (hB : B.length = N * N) (h : toMatrix N A = toMatrix N B) : A = B := by
  apply ext_lineColumn N A B 0 hA hB
  intro line column hl hc
  exact congrFun (congrFun h ⟨line, hl⟩) ⟨column, hc⟩

theorem length_power [Ring T] (N : Nat) (val : List T) (pow : Nat) :
    (power N val pow).length = N * N := by
  cases pow with
  | zero => exact length_identity N
  | succ pow => exact length_mul N _ _

theorem toMatrix_power [Ring T] (N : Nat) (val : List T) (pow : Nat) :
    toMatrix N (power N val pow) = toMatrix N val ^ pow := by
  induction pow with
  | zero => rw [pow_zero]; exact toMatrix_identity N
  | succ pow ih => rw [power, toMatrix_mul, ih, pow_succ']

/-- Squaring first and raising to `2 ^ depth` is raising to `2 ^ (depth + 1)`. -/
theorem power_mul_self [Ring T] (N : Nat) (val : List T) (depth : Nat) :
    power N (mul N val val) (2 ^ depth) = power N val (2 ^ (depth + 1)) := by
  apply eq_of_toMatrix_eq N _ _ (length_power N _ _) (length_power N _ _)
  rw [toMatrix_power, toMatrix_power, toMatrix_mul, ← pow_two, ← pow_mul, pow_succ']

theorem power_one [Ring T] (N : Nat) (val : List T) (h : val.length = N * N) :
    power N val 1 = val := by
  apply eq_of_toMatrix_eq N _ _ (length_power N _ _) h
  rw [toMatrix_power, pow_one]

/-- The zero band of a product: if `A` vanishes where `column < line + j` and `B` where
`column < line + k`, then `A * B` vanishes where `column < line + (j + k)`. -/
theorem getD_mul_eq_zero [Ring T] (N j k : Nat) (A B : List T)
    (hA : ∀ line column, line < N → column < N → column < line + j →
      A.getD (line * N + column) 0 = 0)
    (hB : ∀ line column, line < N → column < N → column < line + k →
      B.getD (line * N + column) 0 = 0)
    (line column : Nat) (hl : line < N) (hc : column < N) (h : column < line + (j + k)) :
    (mul N A B).getD (line * N + column) 0 = 0 := by
  rw [getD_mul N A B line column hl hc]
  apply Finset.sum_eq_zero
  intro i hi
  have hiN := Finset.mem_range.1 hi
  rcases Nat.lt_or_ge i (line + j) with h1 | h1
  · rw [hA line i hl hiN h1, zero_mul]
  · rw [hB i column hiN hc (by omega), mul_zero]

/-- Whatever the depth, `isNilpotent` ends in the ill-formed statement of line 206. -/
theorem isNilpotent_eq_none [Ring T] (N : Nat) (coefs : List T) (depth : Nat) :
    isNilpotent N coefs depth = none := by
  induction depth generalizing coefs with
  | zero => rfl
  | succ depth ih => rw [isNilpotent]; exact ih _

/-! ### `inverse` on `3 × 3` matrices -/

/-- The coefficients that `inverse()` computes for a `3 × 3` matrix, `factor` being
`1.L / det()`. -/
theorem inverse_three (a b c d e f g h i : Int) (factor : ℚ)
    (hf : factor = 1 / ((det 3 [a, b, c, d, e, f, g, h, i] : Int) : ℚ)) :
    inverse 3 [a, b, c, d, e, f, g, h, i]
      = [((i * e - f * h : Int) : ℚ) * factor, ((-(i * b - c * h) : Int) : ℚ) * factor,
          ((f * b - c * e : Int) : ℚ) * factor, ((-(i * d - f * g) : Int) : ℚ) * factor,
          ((i * a - c * g : Int) : ℚ) * factor, ((-(f * a - c * d) : Int) : ℚ) * factor,
          ((h * d - e * g : Int) : ℚ) * factor, ((-(h * a - b * g) : Int) : ℚ) * factor,
          ((e * a - b * d : Int) : ℚ) * factor] := by
  unfold inverse
  rw [if_neg (by decide), ← hf]
  rfl

theorem convertTo_eq_map (coefs : List Int) :
    convertTo coefs = coefs.map (Int.cast : Int → ℚ) := by
  induction coefs with
  | nil => rfl
  | cons val coefs ih =>
    have h : convertTo (val :: coefs) = (val : ℚ) :: convertTo coefs := by
      simp [convertTo]
    rw [h, ih, List.map_cons]

theorem toMatrix_convertTo (N : Nat) (coefs : List Int) :
    toMatrix N (convertTo coefs) = (toMatrix N coefs).map (Int.castRingHom ℚ) := by
  funext line column
  have h := List.getD_map coefs (0 : Int) (n := line.val * N + column.val)
    (Int.cast : Int → ℚ)
  rw [Int.cast_zero] at h
  rw [convertTo_eq_map]
  exact h

theorem det_convertTo (N : Nat) (coefs : List Int) :
    (toMatrix (N + 1) (convertTo coefs)).det = ((det (N + 1) coefs : Int) : ℚ) := by
  rw [toMatrix_convertTo, det_eq_det_toMatrix]
  exact (RingHom.map_det (Int.castRingHom ℚ) (toMatrix (N + 1) coefs)).symm

theorem toMatrix_inverse_three (a b c d e f g h i : Int) :
    toMatrix 3 (inverse 3 [a, b, c, d, e, f, g, h, i])
      = (1 / ((det 3 [a, b, c, d, e, f, g, h, i] : Int) : ℚ)) •
          (toMatrix 3 (convertTo [a, b, c, d, e, f, g, h, i])).adjugate := by
  rw [Matrix.adjugate_fin_three, inverse_three a b c d e f g h i _ rfl]
  generalize (1 / ((det 3 [a, b, c, d, e, f, g, h, i] : Int) : ℚ)) = factor
  funext line column
  fin_cases line <;> fin_cases column <;>
    simp [toMatrix, convertTo] <;> ring

end Matrix

/-! ## Claims on `Matrix<int, N>` -/

/-- C4: for every `N ≥ 1` and every `N × N` integer matrix `M`, `det()` (cofactor expansion
along row `0` over `subMatrix(0, i)`, with the base cases `N == 1` and `N == 2`) is the
Leibniz determinant of `M`; for a `2 × 2` matrix `[[a,b],[c,d]]` it is `a*d - b*c`, and
`[[2,0],[0,3]]` gives `6`. -/
theorem det_eq_leibniz (N : Nat) (M : List Int) (hN : 1 ≤ N) (_hM : M.length = N * N) :
    Matrix.det N M
        = ∑ σ : Equiv.Perm (Fin N),
            Equiv.Perm.sign σ • ∏ i : Fin N, Matrix.toMatrix N M (σ i) i ∧
      Matrix.det N M = (Matrix.toMatrix N M).det ∧
      (∀ a b c d : Int, Matrix.det 2 [a, b, c, d] = a * d - b * c) ∧
      Matrix.det 2 [(2 : Int), 0, 0, 3] = 6 := by
  obtain ⟨n, rfl⟩ : ∃ n, N = n + 1 := ⟨N - 1, by omega⟩
  refine ⟨?_, Matrix.det_eq_det_toMatrix n M, ?_, by decide⟩
  · rw [Matrix.det_eq_det_toMatrix n M, Matrix.det_apply]
  · intro a b c d
    simp only [Matrix.det, List.getD_cons_zero, List.getD_cons_succ]
    ring

/-- Witness for C4 on the `2 × 2` matrix `[[2,0],[0,3]]`. -/
theorem det_eq_leibniz_witness :
    Matrix.det 2 [(2 : Int), 0, 0, 3] = (Matrix.toMatrix 2 [(2 : Int), 0, 0, 3]).det :=
  (det_eq_leibniz 2 [2, 0, 0, 3] (by decide) rfl).2.1

/-- C5 (evaluation at the failing input): for the `2 × 2` identity matrix, whose `det()` is
`1`, `inverse()` is `[[1,0],[0,-1]]`, and the product of the matrix with its `inverse()` is
`[[1,0],[0,-1]]`, not the identity: the sign of a cofactor is taken from the parity of the
flat index `line * Size + column`. -/
theorem mul_inverse_identity_2 :
    Matrix.det 2 [(1 : Int), 0, 0, 1] = 1 ∧
      Matrix.inverse 2 [1, 0, 0, 1] = [1, 0, 0, -1] ∧
      Matrix.mul 2 (Matrix.convertTo [1, 0, 0, 1]) (Matrix.inverse 2 [1, 0, 0, 1])
        = [1, 0, 0, -1] ∧
      Matrix.mul 2 (Matrix.convertTo [1, 0, 0, 1]) (Matrix.inverse 2 [1, 0, 0, 1])
        ≠ Matrix.identity 2 := by
  have hinv : Matrix.inverse 2 [1, 0, 0, 1] = [1, 0, 0, -1] := by
    simp [Matrix.inverse, Matrix.det, Matrix.subMatrix, Matrix.factorMul, Matrix.mulFactor,
      Matrix.transpose, List.range, List.range.loop]
  have hmul : Matrix.mul 2 (Matrix.convertTo [1, 0, 0, 1]) [1, 0, 0, -1]
      = [1, 0, 0, -1] := by
    simp [Matrix.mul, Matrix.mulLoop, Matrix.convertTo, List.range, List.range.loop]
  have hid : (Matrix.identity 2 : List ℚ) = [1, 0, 0, 1] := by
    simp [Matrix.identity, List.range, List.range.loop]
  refine ⟨by decide, hinv, by rw [hinv, hmul], ?_⟩
  rw [hinv, hmul, hid]
  norm_num

/-- C6 (counterexample): on the `2 × 2` matrix with coefficients `1 2 3 4`, `at(2)` (flat
index `N`) returns `3`, `at(0, 2)` returns `3` as well, and `at(2^63, 0)`, whose flat index
`2^63 * 2` wraps around to `0` in `std::size_t`, returns `1`: none of these accesses fails. -/
theorem at_N_succeeds :
    Matrix.atIndex 2 [(1 : Int), 2, 3, 4] 2 = .ok 3 ∧
      Matrix.atLineColumn 2 [(1 : Int), 2, 3, 4] 0 2 = .ok 3 ∧
      Matrix.atLineColumn 2 [(1 : Int), 2, 3, 4] (2 ^ 63) 0 = .ok 1 :=
  ⟨rfl, rfl, rfl⟩

/-- C6 (amended): for every `N ≥ 1` and every `N × N` matrix, `at(index)` fails with an
out-of-range error exactly when `index ≥ N * N` (so `at(N * N)` fails, and `at(N)` fails for
`N = 1`), `at(N, 0)` fails, and `at(line, column)` fails whenever `line ≥ N` and the flat
index `line * N + column` does not overflow `std::size_t` (it is below `2 ^ 64`). -/
theorem at_out_of_range (N : Nat) (coefs : List Int) (hN : 1 ≤ N)
    (hlen : coefs.length = N * N) :
    (∀ index, Matrix.atIndex N coefs index = .error .outOfRange ↔ N * N ≤ index) ∧
      Matrix.atIndex N coefs (N * N) = .error .outOfRange ∧
      (N = 1 → Matrix.atIndex N coefs N = .error .outOfRange) ∧
      Matrix.atLineColumn N coefs N 0 = .error .outOfRange ∧
      (∀ line column, N ≤ line → line * N + column < 2 ^ 64 →
        Matrix.atLineColumn N coefs line column = .error .outOfRange) := by
  have h : ∀ index, Matrix.atIndex N coefs index = .error .outOfRange ↔ N * N ≤ index := by
    intro index
    unfold Matrix.atIndex
    split
    · constructor
      · intro h; cases h
      · intro h; omega
    · constructor
      · intro _; omega
      · intro _; rfl
  refine ⟨h, (h _).2 (le_refl _), ?_, ?_, ?_⟩
  · intro h1; subst h1; exact (h _).2 (le_refl _)
  · have hwrap : (N * N + 0) % Matrix.sizeModulus N = N * N :=
      Nat.mod_eq_of_lt (lt_of_lt_of_le (Nat.lt_succ_self _) (le_max_right _ _))
    unfold Matrix.atLineColumn
    rw [hwrap]
    exact (h _).2 (le_refl _)
  · intro line column hline hsize
    have hwrap : (line * N + column) % Matrix.sizeModulus N = line * N + column :=
      Nat.mod_eq_of_lt (lt_of_lt_of_le hsize (le_max_left _ _))
    unfold Matrix.atLineColumn
    rw [hwrap]
    exact (h _).2 (le_trans (Nat.mul_le_mul_right N hline) (Nat.le_add_right _ _))

/-- Witness for C6 (amended) on the `2 × 2` matrix with coefficients `1 2 3 4`. -/
theorem at_out_of_range_witness :
    Matrix.atIndex 2 [(1 : Int), 2, 3, 4] 4 = .error .outOfRange ∧
      Matrix.atLineColumn 2 [(1 : Int), 2, 3, 4] 2 0 = .error .outOfRange ∧
      Matrix.atLineColumn 2 [(1 : Int), 2, 3, 4] 5 1 = .error .outOfRange :=
  ⟨(at_out_of_range 2 [1, 2, 3, 4] (by decide) rfl).2.1,
    (at_out_of_range 2 [1, 2, 3, 4] (by decide) rfl).2.2.2.1,
    (at_out_of_range 2 [1, 2, 3, 4] (by decide) rfl).2.2.2.2 5 1 (by decide) (by decide)⟩

/-- C7: for every `N ≥ 1`, all `N × N` integer matrices `A` and `B`, and all
`line, column < N`, `(A * B).at(line, column)` is the sum over `k` in `[0, N)` of
`A.at(line, k) * B.at(k, column)`, each of these accesses being in range. -/
theorem mul_at (N : Nat) (A B : List Int) (_hA : A.length = N * N)
    (_hB : B.length = N * N) (line column : Nat) (hl : line < N) (hc : column < N) :
    ∃ a b : Nat → Int,
      (∀ k, k < N → Matrix.atLineColumn N A line k = .ok (a k)) ∧
      (∀ k, k < N → Matrix.atLineColumn N B k column = .ok (b k)) ∧
      Matrix.atLineColumn N (Matrix.mul N A B) line column
        = .ok (∑ k in Finset.range N, a k * b k) := by
  have hlt : ∀ r c, r < N → c < N → r * N + c < N * N := by
    intro r c hr hc
    calc r * N + c < r * N + N := by omega
      _ = (r + 1) * N := by rw [Nat.add_mul, Nat.one_mul]
      _ ≤ N * N := Nat.mul_le_mul_right _ hr
  refine ⟨fun k => A.getD (line * N + k) 0, fun k => B.getD (k * N + column) 0, ?_, ?_, ?_⟩
  · intro k hk
    simp only [Matrix.atLineColumn, Matrix.atIndex, Matrix.wrap_eq _ _ (hlt line k hl hk),
      if_pos (hlt line k hl hk)]
  · intro k hk
    simp only [Matrix.atLineColumn, Matrix.atIndex, Matrix.wrap_eq _ _ (hlt k column hk hc),
      if_pos (hlt k column hk hc)]
  · simp only [Matrix.atLineColumn, Matrix.atIndex,
      Matrix.wrap_eq _ _ (hlt line column hl hc), if_pos (hlt line column hl hc)]
    rw [Matrix.getD_mul N A B line column hl hc]

/-- Witness for C7 with `N = 2`, `A = [[1,2],[3,4]]`, `B = [[5,6],[7,8]]` at `(0, 1)`. -/
theorem mul_at_witness :
    ∃ a b : Nat → Int,
      (∀ k, k < 2 → Matrix.atLineColumn 2 [(1 : Int), 2, 3, 4] 0 k = .ok (a k)) ∧
      (∀ k, k < 2 → Matrix.atLineColumn 2 [(5 : Int), 6, 7, 8] k 1 = .ok (b k)) ∧
      Matrix.atLineColumn 2 (Matrix.mul 2 [(1 : Int), 2, 3, 4] [5, 6, 7, 8]) 0 1
        = .ok (∑ k in Finset.range 2, a k * b k) :=
  mul_at 2 [1, 2, 3, 4] [5, 6, 7, 8] rfl rfl 0 1 (by decide) (by decide)

/-- C8: for every `N ≥ 1` and every `N × N` integer matrix `M`,
`M * Matrix<T,N>::identity()` has exactly the coefficient sequence of `M`. -/
theorem mul_identity (N : Nat) (M : List Int) (hN : 1 ≤ N) (hM : M.length = N * N) :
    Matrix.mul N M (Matrix.identity N) = M := by
  apply List.ext_getElem?
  intro k
  rw [Matrix.mul_eq]
  by_cases hk : k < N * N
  · have hdiv : k / N < N := Nat.div_lt_of_lt_mul hk
    have hmod : k % N < N := Nat.mod_lt _ (by omega)
    rw [List.getElem?_map, List.getElem?_range hk, Option.map_some']
    have hsum : ∑ i in Finset.range N,
        M.getD (k / N * N + i) 0 * (Matrix.identity N : List Int).getD (i * N + k % N) 0
          = M.getD (k / N * N + k % N) 0 := by
      rw [Finset.sum_eq_single (k % N)]
      · rw [Matrix.getD_identity N _ _ hmod hmod, if_pos rfl, mul_one]
      · intro i hi hne
        rw [Matrix.getD_identity N _ _ (Finset.mem_range.1 hi) hmod, if_neg hne, mul_zero]
      · intro h; exact absurd (Finset.mem_range.2 hmod) h
    rw [hsum, Nat.mul_comm, Nat.div_add_mod, List.getD_eq_getElem?_getD,
      List.getElem?_eq_getElem (by omega)]
    rfl
  · rw [List.getElem?_eq_none (by simp; omega), List.getElem?_eq_none (by omega)]

/-- Witness for C8 on the `2 × 2` matrix with coefficients `1 2 3 4`. -/
theorem mul_identity_witness :
    Matrix.mul 2 [(1 : Int), 2, 3, 4] (Matrix.identity 2) = [1, 2, 3, 4] :=
  mul_identity 2 [1, 2, 3, 4] (by decide) rfl

/-- C14: for every `N ≥ 1` and every `N × N` matrix `M`, `M.transpose().transpose()` has
the coefficient sequence of `M`. -/
theorem transpose_transpose {T : Type} [Zero T] (N : Nat) (M : List T) (_hN : 1 ≤ N)
    (hM : M.length = N * N) :
    Matrix.transpose N (Matrix.transpose N M) = M := by
  apply Matrix.ext_lineColumn N _ _ 0 (Matrix.length_transpose N _) hM
  intro line column hl hc
  rw [Matrix.getD_transpose N _ line column hl hc, Matrix.getD_transpose N _ column line hc hl]

/-- Witness for C14 on the `2 × 2` matrix with coefficients `1 2 3 4`. -/
theorem transpose_transpose_witness :
    Matrix.transpose 2 (Matrix.transpose 2 [(1 : Int), 2, 3, 4]) = [1, 2, 3, 4] :=
  transpose_transpose 2 [1, 2, 3, 4] (by decide) rfl

/-- C13: for all sizes `1 ≤ N ≤ K` and every `N × N` matrix `M`, `M.resized<K>()` succeeds
with a `K × K` matrix `R` that holds `M` in its top-left `N × N` block and zero elsewhere,
`R.resized<N>()` has the coefficients of `M`, and `M.resized<N>()` is a copy of `M`. -/
theorem resized_resized {T : Type} [Zero T] (N K : Nat) (M : List T) (_hN : 1 ≤ N)
    (hNK : N ≤ K) (hM : M.length = N * N) :
    ∃ R : List T, Matrix.resized N K M = .ok R ∧ R.length = K * K ∧
      (∀ line column, line < K → column < K →
        Matrix.atLineColumn K R line column
          = .ok (if line < N ∧ column < N then M.getD (line * N + column) 0 else 0)) ∧
      Matrix.resized K N R = .ok M ∧ Matrix.resized N N M = .ok M := by
  have hsame : Matrix.resized N N M = .ok M := by unfold Matrix.resized; rw [if_pos rfl]
  rcases Nat.eq_or_lt_of_le hNK with rfl | hlt
  · refine ⟨M, hsame, hM, ?_, hsame, hsame⟩
    intro line column hl hc
    simp only [Matrix.atLineColumn, Matrix.atIndex,
      Matrix.wrap_eq _ _ (Matrix.lineColumn_lt N line column hl hc),
      if_pos (Matrix.lineColumn_lt N line column hl hc), if_pos (And.intro hl hc)]
  · have hne : N ≠ K := by omega
    have hmin : min N K = N := min_eq_left hNK
    have hmin2 : min K N = N := min_eq_right hNK
    have hR := Matrix.resized_ok N K M hne
    rw [hmin] at hR
    refine ⟨_, hR, by rw [Matrix.length_nested_set, List.length_replicate], ?_, ?_, hsame⟩
    · intro line column hl hc
      simp only [Matrix.atLineColumn, Matrix.atIndex,
        Matrix.wrap_eq _ _ (Matrix.lineColumn_lt K line column hl hc),
        if_pos (Matrix.lineColumn_lt K line column hl hc)]
      congr 1
      by_cases hin : line < N ∧ column < N
      · rw [if_pos hin]
        have h := Matrix.getD_nested_set_written N N (fun line column => line * K + column)
          (fun line column => M.getD (line * N + column) 0)
          (fun k => M.getD (k / K * N + k % K) 0) (List.replicate (K * K) 0) 0 line column
          (fun l c _ hc2 => by
            simp only [Matrix.lineColumn_div K l c (by omega),
              Matrix.lineColumn_mod K l c (by omega)])
          hin.1 hin.2 (by rw [List.length_replicate]; exact Matrix.lineColumn_lt K _ _ hl hc)
        simp only [Matrix.lineColumn_div K line column hc,
          Matrix.lineColumn_mod K line column hc] at h
        exact h
      · rw [if_neg hin, Matrix.getD_nested_set_untouched]
        · rw [List.getD_eq_getElem?_getD, List.getElem?_replicate,
            if_pos (Matrix.lineColumn_lt K line column hl hc)]
          rfl
        · intro l c hl2 hc2 heq
          obtain ⟨h1, h2⟩ := Matrix.lineColumn_injective K l c line column (by omega) hc heq
          exact hin ⟨by omega, by omega⟩
    · have hS := Matrix.resized_ok K N
        ((List.range N).foldl (fun result line =>
          (List.range N).foldl (fun (result : List T) column =>
            result.set (line * K + column) (M.getD (line * N + column) 0)) result)
          (List.replicate (K * K) 0)) (Ne.symm hne)
      rw [hmin2] at hS
      rw [hS]
      congr 1
      apply Matrix.ext_lineColumn N _ _ 0
        (by rw [Matrix.length_nested_set, List.length_replicate]) hM
      intro line column hl hc
      have h := Matrix.getD_nested_set_written N N (fun line column => line * N + column)
        (fun line column => ((List.range N).foldl (fun result line =>
          (List.range N).foldl (fun (result : List T) column =>
            result.set (line * K + column) (M.getD (line * N + column) 0)) result)
          (List.replicate (K * K) 0)).getD (line * K + column) 0)
        (fun k => ((List.range N).foldl (fun result line =>
          (List.range N).foldl (fun (result : List T) column =>
            result.set (line * K + column) (M.getD (line * N + column) 0)) result)
          (List.replicate (K * K) 0)).getD (k / N * K + k % N) 0)
        (List.replicate (N * N) 0) 0 line column
        (fun l c _ hc2 => by
          simp only [Matrix.lineColumn_div N l c hc2, Matrix.lineColumn_mod N l c hc2])
        hl hc (by rw [List.length_replicate]; exact Matrix.lineColumn_lt N _ _ hl hc)
      simp only [Matrix.lineColumn_div N line column hc,
        Matrix.lineColumn_mod N line column hc] at h
      rw [h]
      have h2 := Matrix.getD_nested_set_written N N (fun line column => line * K + column)
        (fun line column => M.getD (line * N + column) 0)
        (fun k => M.getD (k / K * N + k % K) 0) (List.replicate (K * K) 0) 0 line column
        (fun l c _ hc2 => by
          simp only [Matrix.lineColumn_div K l c (by omega),
            Matrix.lineColumn_mod K l c (by omega)])
        hl hc (by
          rw [List.length_replicate]
          exact Matrix.lineColumn_lt K _ _ (by omega) (by omega))
      simp only [Matrix.lineColumn_div K line column (show column < K by omega),
        Matrix.lineColumn_mod K line column (show column < K by omega)] at h2
      exact h2

/-- Witness for C13 with `N = 1`, `K = 2` on the `1 × 1` matrix with coefficient `7`. -/
theorem resized_resized_witness :
    ∃ R : List Int, Matrix.resized 1 2 [7] = .ok R ∧ R.length = 2 * 2 ∧
      (∀ line column, line < 2 → column < 2 →
        Matrix.atLineColumn 2 R line column
          = .ok (if line < 1 ∧ column < 1 then [(7 : Int)].getD (line * 1 + column) 0 else 0)) ∧
      Matrix.resized 2 1 R = .ok [7] ∧ Matrix.resized 1 1 [(7 : Int)] = .ok [7] :=
  resized_resized 1 2 [7] (by decide) (by decide) rfl

/-- C12 (evaluation at the failing input): `M = [[0,5],[0,0]]` is strictly upper-triangular
and `M * M` is the all-zero matrix, but `M.isNilpotent()` with the default depth `2` delivers
no truth value, hence not `true`: every call ends in the ill-formed statement of line 206. -/
theorem isNilpotent_strictly_upper_no_value :
    Matrix.mul 2 [(0 : Int), 5, 0, 0] [0, 5, 0, 0] = Matrix.ofValue 2 0 ∧
      Matrix.isNilpotent 2 [(0 : Int), 5, 0, 0] 2 = none ∧
      Matrix.isNilpotent 2 [(0 : Int), 5, 0, 0] 2 ≠ some true := by
  refine ⟨by decide, Matrix.isNilpotent_eq_none 2 _ 2, ?_⟩
  rw [Matrix.isNilpotent_eq_none 2 _ 2]
  decide

/-- C15 (counterexample): for `N = 1` and the all-zero `1 × 1` matrix, `M ^ 0` is the
matrix filled with the scalar `1`. -/
theorem power_zero_size_one :
    Matrix.power 1 [(0 : Int)] 0 = Matrix.ofValue 1 1 := by
  decide

/-- C15 (amended): for every `N ≥ 1` and every `N × N` integer matrix `M`, `M ^ 0` is
`Matrix<T,N>::identity()`, with `1` on the main diagonal and `0` elsewhere; for `N ≥ 2` it
is not the matrix filled with the scalar `1`. -/
theorem power_zero (N : Nat) (M : List Int) (_hN : 1 ≤ N) (_hM : M.length = N * N) :
    Matrix.power N M 0 = Matrix.identity N ∧
      (∀ line column, line < N → column < N →
        Matrix.atLineColumn N (Matrix.power N M 0) line column
          = .ok (if line = column then 1 else 0)) ∧
      (2 ≤ N → Matrix.power N M 0 ≠ Matrix.ofValue N 1) := by
  refine ⟨rfl, ?_, ?_⟩
  · intro line column hl hc
    simp only [Matrix.power, Matrix.atLineColumn, Matrix.atIndex,
      Matrix.wrap_eq _ _ (Matrix.lineColumn_lt N line column hl hc),
      if_pos (Matrix.lineColumn_lt N line column hl hc)]
    rw [Matrix.getD_identity N line column hl hc]
  · intro h2 heq
    have h1 := Matrix.getD_identity (T := Int) N 0 1 (by omega) (by omega)
    rw [show Matrix.identity N = Matrix.power N M 0 from rfl, heq, Matrix.ofValue,
      List.getD_eq_getElem?_getD, List.getElem?_replicate,
      if_pos (Matrix.lineColumn_lt N 0 1 (by omega) (by omega))] at h1
    simp at h1

/-- Witness for C15 (amended) on the all-zero `2 × 2` matrix. -/
theorem power_zero_witness :
    Matrix.power 2 [(0 : Int), 0, 0, 0] 0 = Matrix.identity 2 ∧
      Matrix.power 2 [(0 : Int), 0, 0, 0] 0 ≠ Matrix.ofValue 2 1 :=
  ⟨(power_zero 2 [0, 0, 0, 0] (by decide) rfl).1,
    (power_zero 2 [0, 0, 0, 0] (by decide) rfl).2.2 (by decide)⟩

/-- C17 (evaluation at the failing input): for `M = [[0,5],[0,0]]` and depth `1`,
`power(M, 2^1)` is the all-zero matrix, but `M.isNilpotent(1)` delivers no truth value, hence
not `true`; the identity matrix at depth `1` gets no truth value either, hence not `false`. -/
theorem isNilpotent_power_no_value :
    Matrix.power 2 [(0 : Int), 5, 0, 0] (2 ^ 1) = Matrix.ofValue 2 0 ∧
      Matrix.isNilpotent 2 [(0 : Int), 5, 0, 0] 1 ≠ some true ∧
      Matrix.isNilpotent 2 (Matrix.identity 2 : List Int) 1 ≠ some false := by
  refine ⟨by decide, ?_, ?_⟩
  · rw [Matrix.isNilpotent_eq_none 2 _ 1]; decide
  · rw [Matrix.isNilpotent_eq_none 2 _ 1]; decide

/-- C20: for every `3 × 3` integer matrix `M` with `det() != 0`, `long double` being exact
rational arithmetic, `M.inverse()` is `adjugate(M) / det(M)`, and its product with `M`, on
either side, is the `3 × 3` identity. -/
theorem inverse_three_eq (M : List Int) (hM : M.length = 3 * 3) (hdet : Matrix.det 3 M ≠ 0) :
    Matrix.toMatrix 3 (Matrix.inverse 3 M)
        = (1 / ((Matrix.det 3 M : Int) : ℚ)) •
            (Matrix.toMatrix 3 (Matrix.convertTo M)).adjugate ∧
      Matrix.mul 3 (Matrix.convertTo M) (Matrix.inverse 3 M) = Matrix.identity 3 ∧
      Matrix.mul 3 (Matrix.inverse 3 M) (Matrix.convertTo M) = Matrix.identity 3 := by
  obtain ⟨a, b, c, d, e, f, g, h, i, rfl⟩ :
      ∃ a b c d e f g h i, M = [a, b, c, d, e, f, g, h, i] := by
    rcases M with _ | ⟨a, _ | ⟨b, _ | ⟨c, _ | ⟨d, _ | ⟨e, _ | ⟨f, _ | ⟨g, _ | ⟨h, _ | ⟨i, _ | ⟨j, M⟩⟩⟩⟩⟩⟩⟩⟩⟩⟩ <;>
      simp at hM
    exact ⟨a, b, c, d, e, f, g, h, i, rfl⟩
  have hadj := Matrix.toMatrix_inverse_three a b c d e f g h i
  have hD : ((Matrix.det 3 [a, b, c, d, e, f, g, h, i] : Int) : ℚ) ≠ 0 := by
    exact_mod_cast hdet
  refine ⟨hadj, ?_, ?_⟩
  · apply Matrix.eq_of_toMatrix_eq 3 _ _ (Matrix.length_mul 3 _ _) (Matrix.length_identity 3)
    rw [Matrix.toMatrix_mul, Matrix.toMatrix_identity, hadj, Matrix.mul_smul,
      Matrix.mul_adjugate, Matrix.det_convertTo 2, smul_smul, one_div, inv_mul_cancel₀ hD,
      one_smul]
  · apply Matrix.eq_of_toMatrix_eq 3 _ _ (Matrix.length_mul 3 _ _) (Matrix.length_identity 3)
    rw [Matrix.toMatrix_mul, Matrix.toMatrix_identity, hadj, Matrix.smul_mul,
      Matrix.adjugate_mul, Matrix.det_convertTo 2, smul_smul, one_div, inv_mul_cancel₀ hD,
      one_smul]

/-- Witness for C20 on `[[2,0,1],[1,3,0],[0,1,4]]`, whose determinant is `25`. -/
theorem inverse_three_eq_witness :
    Matrix.det 3 [(2 : Int), 0, 1, 1, 3, 0, 0, 1, 4] ≠ 0 ∧
      Matrix.mul 3 (Matrix.convertTo [2, 0, 1, 1, 3, 0, 0, 1, 4])
        (Matrix.inverse 3 [2, 0, 1, 1, 3, 0, 0, 1, 4]) = Matrix.identity 3 :=
  ⟨by decide, (inverse_three_eq [2, 0, 1, 1, 3, 0, 0, 1, 4] rfl (by decide)).2.1⟩

end Math
